import Mathlib

/-!
Verification of the variable-resolution and template-rendering pipeline of the
idp-cli crate.  The Rust sources are shallowly embedded: strings are lists of
characters (`Str`), `serde_json::Value` becomes `JValue`, the `HashMap`-backed
variable store becomes an association list with overwrite-on-insert semantics,
and Rust operations that can panic are modelled with the explicit `PanicOr`
result type.
-/

namespace Visuidp

/-- Rust strings, modelled as their character sequences.  Byte-level
operations of the source (`str::len`, byte slicing) are modelled explicitly
via `Char.utf8Size` where they matter. -/
abbrev Str := List Char

/-- `serde_json::Value`.  Objects carry their fields as ordered key/value
pairs in map-iteration order; numbers are modelled as integers (the numeric
subtype is irrelevant to every claim considered here). -/
inductive JValue : Type where
  | null : JValue
  | bool (b : Bool) : JValue
  | num (n : Int) : JValue
  | str (s : Str) : JValue
  | arr (items : List JValue) : JValue
  | obj (fields : List (Str × JValue)) : JValue

/-- `serde_json::Value::as_str`: `Some` for strings, `None` otherwise. -/
def JValue.asStr : JValue → Option Str
  | .str s => some s
  | _ => none

/-- `serde_json::Value::get` with a string key: object-field lookup
(the first matching field; `serde_json` maps have unique keys). -/
def JValue.getKey : JValue → Str → Option JValue
  | .obj fields, k => fields.lookup k
  | _, _ => none

/-- `serde_json::Value::get` with a `usize` index: array indexing. -/
def JValue.getIdx : JValue → Nat → Option JValue
  | .arr items, i => items.get? i
  | _, _ => none

/-- Result of a Rust computation that may panic (e.g. out-of-bounds string
slicing). -/
inductive PanicOr (α : Type) : Type where
  | panics : PanicOr α
  | ok (a : α) : PanicOr α

def PanicOr.map {α β : Type} (f : α → β) : PanicOr α → PanicOr β
  | .panics => .panics
  | .ok a => .ok (f a)

/-- A `HashMap`, modelled as an association list with unique keys;
`lookupPair` returns the value of the first matching key. -/
def lookupPair {κ ν : Type} [DecidableEq κ] : List (κ × ν) → κ → Option ν
  | [], _ => none
  | (k', v') :: rest, k => if k' = k then some v' else lookupPair rest k

/-- `HashMap::insert`: overwrite the existing binding or append a new one. -/
def insertPair {κ ν : Type} [DecidableEq κ] : List (κ × ν) → κ → ν → List (κ × ν)
  | [], k, v => [(k, v)]
  | (k', v') :: rest, k, v =>
    if k' = k then (k, v) :: rest else (k', v') :: insertPair rest k v

/-- `HashMap::remove` (all bindings of the key, so the lookup behaviour is
map removal even on association lists with duplicate keys). -/
def erasePair {κ ν : Type} [DecidableEq κ] : List (κ × ν) → κ → List (κ × ν)
  | [], _ => []
  | (k', v') :: rest, k =>
    if k' = k then erasePair rest k else (k', v') :: erasePair rest k

/-- `HashMap::contains_key`. -/
def containsKey {κ ν : Type} [DecidableEq κ] (m : List (κ × ν)) (k : κ) : Bool :=
  (lookupPair m k).isSome

/-- Sequential insertion of a list of bindings. -/
def insertAll {κ ν : Type} [DecidableEq κ] (m : List (κ × ν)) : List (κ × ν) → List (κ × ν)
  | [] => m
  | (k, v) :: rest => insertAll (insertPair m k v) rest

/-- `VariableContext`; the field models `variables: HashMap<String, Value>`
(`variables` is a reserved word in Lean, hence the shorter field name). -/
structure VariableContext : Type where
  vars : List (Str × JValue)

/-! ### `VariableContext::get` (src/idp-cli/src/variable_context.rs) -/

/-- `str::find(char)`: index of the first occurrence. -/
def findChar (c : Char) : Str → Option Nat
  | [] => none
  | c' :: rest =>
    if c' = c then some 0 else (findChar c rest).map (· + 1)

/-- Rust string slicing `&s[a..b]`: panics unless `a ≤ b ≤ s.len()`.
Indices are character positions; every byte position produced by the
embedded code falls on a character boundary in the scenarios considered. -/
def sliceStr (s : Str) (a b : Nat) : PanicOr Str :=
  if a ≤ b ∧ b ≤ s.length then .ok ((s.drop a).take (b - a)) else .panics

/-- `str::parse::<usize>()` (as an `Option`): an optional leading `+`
followed by at least one ASCII digit.  Overflow of `usize` is not modelled;
it can only matter for indices beyond any actual array length, where both
the code and the model answer "not found". -/
def parseUsize (s : Str) : Option Nat :=
  let t := match s with
    | '+' :: rest => rest
    | _ => s
  if t = [] then none
  else if t.all (fun c => c.isDigit) then
    some (t.foldl (fun a c => a * 10 + (c.toNat - 48)) 0)
  else none

/-- `str::split('.')` — always returns at least one (possibly empty) part. -/
def splitDot : Str → List Str
  | [] => [[]]
  | c :: rest =>
    if c = '.' then [] :: splitDot rest
    else match splitDot rest with
      | [] => [[c]]
      | p :: ps => (c :: p) :: ps

/-- `VariableContext::get_with_array_index`. -/
def VariableContext.get_with_array_index (ctx : VariableContext) (part : Str) :
    PanicOr (Option JValue) :=
  match findChar '[' part with
  | some bracket_pos =>
    let key := part.take bracket_pos
    match sliceStr part (bracket_pos + 1) (part.length - 1) with
    | .panics => .panics
    | .ok index_str =>
      .ok (do
        let index ← parseUsize index_str
        let array ← lookupPair ctx.vars key
        array.getIdx index)
  | none => .ok (lookupPair ctx.vars part)

/-- `VariableContext::navigate_part`. -/
def VariableContext.navigate_part (current : JValue) (part : Str) :
    PanicOr (Option JValue) :=
  match findChar '[' part with
  | some bracket_pos =>
    let key := part.take bracket_pos
    match sliceStr part (bracket_pos + 1) (part.length - 1) with
    | .panics => .panics
    | .ok index_str =>
      .ok (do
        let index ← parseUsize index_str
        let value ← current.getKey key
        value.getIdx index)
  | none => .ok (current.getKey part)

/-- The `for part in &parts[1..]` loop of `VariableContext::get`:
`current = self.navigate_part(current, part)?`. -/
def VariableContext.navigateParts (current : JValue) : List Str → PanicOr (Option JValue)
  | [] => .ok (some current)
  | p :: ps =>
    match VariableContext.navigate_part current p with
    | .panics => .panics
    | .ok none => .ok none
    | .ok (some v) => VariableContext.navigateParts v ps

/-- `VariableContext::get`. -/
def VariableContext.get (ctx : VariableContext) (path : Str) : PanicOr (Option JValue) :=
  match lookupPair ctx.vars path with
  | some v => .ok (some v)
  | none =>
    let parts := splitDot path
    if parts.length = 1 then ctx.get_with_array_index (parts.headD [])
    else
      match ctx.get_with_array_index (parts.headD []) with
      | .panics => .panics
      | .ok none => .ok none
      | .ok (some v) => VariableContext.navigateParts v parts.tail

/-! ### `default_helper` (src/idp-cli/src/template_processor.rs) -/

/-- `default_helper`: the helper receives its resolved parameter values in
order (`h.param(0)`, `h.param(1)`); a missing second parameter is the
`RenderError` branch, and otherwise the written output is returned. -/
def default_helper (params : List JValue) : Except Str Str :=
  let value := params.get? 0
  match params.get? 1 with
  | none => .error "default helper requires a fallback value".toList
  | some dflt =>
    let result := match value with
      | some val =>
        let val_str := (val.asStr).getD []
        if val_str = [] then (dflt.asStr).getD [] else val_str
      | none => (dflt.asStr).getD []
    .ok result

/-! ### Template rendering (src/idp-cli/src/template_processor.rs) -/

/-- A parsed template: literal text interleaved with `{{path}}` placeholders. -/
inductive TemplateItem : Type where
  | lit (s : Str) : TemplateItem
  | placeholder (path : Str) : TemplateItem

/-- Modelled from the spec: the textual rendering of a resolved scalar value.
Only scalar renderings are specified; composite renderings are irrelevant to
the claims below (no claim exercises a resolved composite placeholder). -/
def valueToStr : JValue → Str
  | .null => []
  | .bool true => "true".toList
  | .bool false => "false".toList
  | .num n => (toString n).toList
  | .str s => s
  | .arr _ => []
  | .obj _ => []

/-- Modelled from the spec: `TemplateProcessor::process_template` delegates
substitution to the external Handlebars engine (with strict mode disabled),
which is not part of this repository's sources.  Following §4.4, rendering
substitutes each `{{path}}` placeholder with the value resolved through the
Store, and an unresolved path renders as the empty string. -/
def process_template (ctx : VariableContext) : List TemplateItem → PanicOr Str
  | [] => .ok []
  | .lit s :: rest => (process_template ctx rest).map (s ++ ·)
  | .placeholder p :: rest =>
    match ctx.get p with
    | .panics => .panics
    | .ok v =>
      let rendered := match v with
        | some jv => valueToStr jv
        | none => []
      (process_template ctx rest).map (rendered ++ ·)

/-- The placeholder paths occurring in a template. -/
def placeholderPaths : List TemplateItem → List Str
  | [] => []
  | .lit _ :: rest => placeholderPaths rest
  | .placeholder p :: rest => p :: placeholderPaths rest

/-- The claimed output: every placeholder replaced by the empty string. -/
def renderAllMissing : List TemplateItem → Str
  | [] => []
  | .lit s :: rest => s ++ renderAllMissing rest
  | .placeholder _ :: rest => renderAllMissing rest

/-! ### Template discovery (src/idp-cli/src/template_discovery.rs) -/

/-- A directory tree.  Non-regular entries (e.g. symlinks, skipped by the
`entry.file_type().is_file()` check without being descended into) are not
modelled. -/
inductive FsEntry : Type where
  | file (name : Str) : FsEntry
  | dir (name : Str) (children : List FsEntry) : FsEntry

/-- `TemplateDiscovery::is_hidden`: the file name starts with `'.'`. -/
def is_hidden (name : Str) : Bool :=
  match name with
  | '.' :: _ => true
  | _ => false

/-- `Path::extension()` on a file name: the portion after the last `.`,
except that a leading `.` (hidden-file marker) does not count as a
separator. -/
def afterLastDot : Str → Option Str
  | [] => none
  | c :: rest =>
    match afterLastDot rest with
    | some e => some e
    | none => if c = '.' then some rest else none

def fileExtension : Str → Option Str
  | [] => none
  | _ :: cs => afterLastDot cs

inductive TemplateFileType : Type where
  | terraform : TemplateFileType
  | yaml : TemplateFileType
  | json : TemplateFileType
deriving DecidableEq

/-- `TemplateFileType::from_extension` (`to_lowercase` is modelled by
`Char.toLower`, which agrees on the ASCII range the comparisons use). -/
def TemplateFileType.from_extension (ext : Str) : Option TemplateFileType :=
  let e := ext.map Char.toLower
  if e = "tf".toList then some .terraform
  else if e = "yaml".toList ∨ e = "yml".toList then some .yaml
  else if e = "json".toList then some .json
  else none

/-- A discovered template file; the absolute path is the root joined with
`relative_path` and is not duplicated in the model. -/
structure TemplateFile : Type where
  relative_path : List Str
  file_type : TemplateFileType
deriving DecidableEq

/-- The walk of `TemplateDiscovery::discover_templates` below the root:
`filter_entry` prunes hidden entries, directories are descended, files with
a recognized extension are collected with their path relative to the root.
The existence/`is_dir` pre-checks and the I/O error taxonomy precede this
walk and are outside the claim (which quantifies over existing directory
trees).  The root itself is exempted from the hidden filter by
`e.path() == self.template_dir`, which the model reflects by walking the
root's children without ever consulting the root's own name. -/
def discover_aux (pre : List Str) : List FsEntry → List TemplateFile
  | [] => []
  | .file name :: rest =>
    (if is_hidden name then []
     else match (fileExtension name).bind TemplateFileType.from_extension with
       | some t => [⟨pre ++ [name], t⟩]
       | none => []) ++ discover_aux pre rest
  | .dir d cs :: rest =>
    (if is_hidden d then [] else discover_aux (pre ++ [d]) cs) ++ discover_aux pre rest

/-- `TemplateDiscovery::discover_templates`, as a function of the root
directory's children. -/
def discover_templates (rootChildren : List FsEntry) : List TemplateFile :=
  discover_aux [] rootChildren

/-- The claim's characterization: a non-hidden regular file, reachable from
the root through non-hidden directories, whose extension is recognized; its
relative path is its on-disk path relative to the root. -/
inductive SpecDiscovered : List FsEntry → List Str → TemplateFileType → Prop where
  | file {entries : List FsEntry} {fname : Str} {t : TemplateFileType} :
      FsEntry.file fname ∈ entries → is_hidden fname = false →
      (fileExtension fname).bind TemplateFileType.from_extension = some t →
      SpecDiscovered entries [fname] t
  | sub {entries : List FsEntry} {d : Str} {cs : List FsEntry} {rel : List Str}
      {t : TemplateFileType} :
      FsEntry.dir d cs ∈ entries → is_hidden d = false →
      SpecDiscovered cs rel t → SpecDiscovered entries (d :: rel) t

/-! ### `FileWriter` (src/idp-cli/src/file_writer.rs) -/

/-- A filesystem path as its component sequence. -/
abbrev Path := List Str

/-- `Path::file_stem` of a file name: the portion before the extension. -/
def fileStem (name : Str) : Str :=
  match fileExtension name with
  | some ext => name.take (name.length - (ext.length + 1))
  | none => name

/-- `path.with_extension("tmp")`: replace the last component's extension. -/
def with_extension_tmp (p : Path) : Path :=
  match p with
  | [] => []
  | _ => p.dropLast ++ [fileStem (p.getLast?.getD []) ++ ".tmp".toList]

/-- The filesystem state: file contents plus the set of directories.
The model is an ideal filesystem on which the writer's I/O operations
succeed, matching the claim's restriction to successful calls. -/
structure Fs : Type where
  files : List (Path × Str)
  dirs : List Path

/-- `Path::exists`. -/
def Fs.existsPath (fs : Fs) (p : Path) : Bool :=
  containsKey fs.files p || decide (p ∈ fs.dirs)

/-- `fs::create_dir_all`: create every missing ancestor directory. -/
def Fs.createDirAll (fs : Fs) (p : Path) : Fs :=
  let newDirs :=
    ((List.range p.length).map (fun i => p.take (i + 1))).filter
      (fun q => decide (q ∉ fs.dirs))
  { fs with dirs := fs.dirs ++ newDirs }

/-- `fs::write`. -/
def Fs.writeFile (fs : Fs) (p : Path) (content : Str) : Fs :=
  { fs with files := insertPair fs.files p content }

/-- `fs::rename`. -/
def Fs.rename (fs : Fs) (src dst : Path) : Fs :=
  match lookupPair fs.files src with
  | some c => { fs with files := insertPair (erasePair fs.files src) dst c }
  | none => fs

/-- `ProcessedFile` (src/idp-cli/src/template_processor.rs). -/
structure ProcessedFile : Type where
  relative_path : Path
  content : Str

/-- `FileWriter::ensure_directory_exists`. -/
def ensure_directory_exists (fs : Fs) (p : Path) : Fs :=
  if fs.existsPath p then fs else fs.createDirAll p

/-- `FileWriter::write_with_warning`: warn on an existing target, write the
content to the sibling temporary path, then rename it onto the target.
The Unix permission bits (0600) set on the temporary file are metadata not
represented in the model. -/
def write_with_warning (fs : Fs) (path : Path) (content : Str) : Fs × List Path :=
  let warn := if fs.existsPath path then [path] else []
  let temp_path := with_extension_tmp path
  let fs1 := fs.writeFile temp_path content
  (fs1.rename temp_path path, warn)

/-- `FileWriter::write_processed_files`; returns the filesystem, the written
paths, and the overwrite warnings. -/
def write_processed_files (output_dir : Path) (fs : Fs) :
    List ProcessedFile → Fs × List Path × List Path
  | [] => (fs, [], [])
  | f :: rest =>
    let output_path := output_dir ++ f.relative_path
    let fs1 := if output_path = [] then fs
      else ensure_directory_exists fs output_path.dropLast
    let r := write_with_warning fs1 output_path f.content
    let r2 := write_processed_files output_dir r.1 rest
    (r2.1, output_path :: r2.2.1, r.2 ++ r2.2.2)

/-- The target path of a processed file: output root joined with the
relative path. -/
def targetPath (output_dir : Path) (f : ProcessedFile) : Path :=
  output_dir ++ f.relative_path

/-! ### Merging custom variables (src/idp-cli/src/variable_context.rs) -/

/-- The ASCII digit character for `d < 10`. -/
def digitChar (d : Nat) : Char := Char.ofNat (48 + d)

/-- Decimal rendering, with structural fuel so that the kernel can evaluate
it (`natToStrAux (n+1) n` always has enough fuel). -/
def natToStrAux : Nat → Nat → Str
  | 0, _ => []
  | fuel + 1, n =>
    if n < 10 then [digitChar n]
    else natToStrAux fuel (n / 10) ++ [digitChar (n % 10)]

/-- Decimal rendering of a `usize` (`format!("{}", index)`). -/
def natToStr (n : Nat) : Str := natToStrAux (n + 1) n

/-- Warn (append the path to the diagnostic channel) if the key is already
present: `eprintln!("Warning: Custom variable '{}' overrides existing value")`. -/
def warnIfPresent (st : List (Str × JValue) × List Str) (k : Str) :
    List (Str × JValue) × List Str :=
  if containsKey st.1 k then (st.1, st.2 ++ [k]) else st

/-- Whether a value falls into the `Value::Object(_) | Value::Array(_)`
match arm of `flatten_and_merge` (composites are both inserted whole and
flattened; primitives are just inserted). -/
def JValue.isComposite : JValue → Bool
  | .obj _ => true
  | .arr _ => true
  | _ => false

mutual

/-- `VariableContextBuilder::flatten_and_merge`, with the context's variables
map and the stderr warning channel passed as explicit state. -/
def flatten_and_merge (st : List (Str × JValue) × List Str) (pre : Str) :
    JValue → List (Str × JValue) × List Str
  | .obj fields => flattenObjFields st pre fields
  | .arr items =>
    let st1 :=
      if pre ≠ [] then
        let st' := warnIfPresent st pre
        (insertPair st'.1 pre (.arr items), st'.2)
      else st
    flattenArrItems st1 pre 0 items
  | v =>
    if pre ≠ [] then
      let st' := warnIfPresent st pre
      (insertPair st'.1 pre v, st'.2)
    else st

/-- The `Value::Object` loop of `flatten_and_merge`. -/
def flattenObjFields (st : List (Str × JValue) × List Str) (pre : Str) :
    List (Str × JValue) → List (Str × JValue) × List Str
  | [] => st
  | (key, val) :: rest =>
    let np := if pre = [] then key else pre ++ ".".toList ++ key
    let st1 := warnIfPresent st np
    let st2 := if val.isComposite
      then flatten_and_merge (insertPair st1.1 np val, st1.2) np val
      else (insertPair st1.1 np val, st1.2)
    flattenObjFields st2 pre rest

/-- The `Value::Array` loop of `flatten_and_merge`. -/
def flattenArrItems (st : List (Str × JValue) × List Str) (pre : Str) (idx : Nat) :
    List JValue → List (Str × JValue) × List Str
  | [] => st
  | item :: rest =>
    let ik := pre ++ "[".toList ++ natToStr idx ++ "]".toList
    let st1 := warnIfPresent st ik
    let st2 := if item.isComposite
      then flatten_and_merge (insertPair st1.1 ik item, st1.2) ik item
      else (insertPair st1.1 ik item, st1.2)
    flattenArrItems st2 pre (idx + 1) rest

end

/-- `VariableContextBuilder::merge_custom_variables`.  The filesystem read,
the file extension, and the external `serde_json`/`serde_yaml` parsers
(including the YAML→JSON conversion) are supplied as parameters; every code
path of the source that produces a `CliError::VariableFileError` is mapped
to an `.error` before `flatten_and_merge` is ever reached. -/
def merge_custom_variables (ctx : List (Str × JValue)) (readResult : Option Str)
    (ext : Str) (parseJson parseYaml : Str → Option JValue) :
    Except Str Unit × List (Str × JValue) × List Str :=
  match readResult with
  | none => (.error "Failed to read variables file".toList, ctx, [])
  | some contents =>
    let extLower := ext.map Char.toLower
    let parsed : Except Str JValue :=
      if extLower = "json".toList then
        match parseJson contents with
        | some v => .ok v
        | none => .error "Failed to parse JSON".toList
      else if extLower = "yaml".toList ∨ extLower = "yml".toList then
        match parseYaml contents with
        | some v => .ok v
        | none => .error "Failed to parse YAML".toList
      else .error "Unsupported file extension".toList
    match parsed with
    | .error e => (.error e, ctx, [])
    | .ok v =>
      match v with
      | .obj fields =>
        let st := flatten_and_merge (ctx, []) [] (.obj fields)
        (.ok (), st.1, st.2)
      | _ => (.error "Variables file must contain a JSON or YAML object at the root".toList,
          ctx, [])

mutual

/-- The (path, value) insertions `flatten_and_merge` performs, in order
(including the re-insertion an array value under a non-empty prefix
receives). -/
def derivedPairs (pre : Str) : JValue → List (Str × JValue)
  | .obj fields => derivedPairsObj pre fields
  | .arr items =>
    (if pre ≠ [] then [(pre, .arr items)] else []) ++ derivedPairsArr pre 0 items
  | v => if pre ≠ [] then [(pre, v)] else []

def derivedPairsObj (pre : Str) : List (Str × JValue) → List (Str × JValue)
  | [] => []
  | (key, val) :: rest =>
    let np := if pre = [] then key else pre ++ ".".toList ++ key
    ((np, val) :: (if val.isComposite then derivedPairs np val else [])) ++
      derivedPairsObj pre rest

def derivedPairsArr (pre : Str) (idx : Nat) : List JValue → List (Str × JValue)
  | [] => []
  | item :: rest =>
    let ik := pre ++ "[".toList ++ natToStr idx ++ "]".toList
    ((ik, item) :: (if item.isComposite then derivedPairs ik item else [])) ++
      derivedPairsArr pre (idx + 1) rest

end

/-- The statement of the flattening lemma: under pairwise-distinct derived
paths, `flatten_and_merge` inserts exactly the derived pairs in order, and
warns exactly on the derived paths already present at entry. -/
def FlattenSpec (st : List (Str × JValue) × List Str) (pre : Str) (v : JValue) : Prop :=
  ((derivedPairs pre v).map Prod.fst).Nodup →
    flatten_and_merge st pre v =
      (insertAll st.1 (derivedPairs pre v),
       st.2 ++ ((derivedPairs pre v).map Prod.fst).filter (fun k => containsKey st.1 k))

/-- Number of occurrences of a path in a warning list. -/
def countOcc (p : Str) (l : List Str) : Nat :=
  (l.filter (fun q => decide (q = p))).length

/-! ### Context building (src/idp-cli/src/variable_context.rs, src/idp-cli/src/models.rs) -/

/-- `models::CloudProvider`; `Uuid` fields are modelled by their rendered
string (`to_string`), which is all the builder uses. -/
structure CloudProvider : Type where
  id : Str
  name : Str
  display_name : Str

/-- `models::ResourceType`. -/
structure ResourceType : Type where
  id : Str
  name : Str
  category : Str

/-- `models::BlueprintResource`; the `HashMap` of cloud-specific properties
is carried in its iteration order. -/
structure BlueprintResource : Type where
  id : Str
  name : Str
  description : Option Str
  resource_type : ResourceType
  cloud_provider : CloudProvider
  configuration : JValue
  cloud_specific_properties : List (Str × JValue)

/-- `models::Blueprint`. -/
structure Blueprint : Type where
  id : Str
  name : Str
  description : Option Str
  resources : List BlueprintResource
  supported_cloud_providers : List CloudProvider

/-- `models::StackResource`. -/
structure StackResource : Type where
  id : Str
  name : Str
  description : Option Str
  resource_type : ResourceType
  cloud_provider : CloudProvider
  configuration : List (Str × JValue)

/-- `models::Stack`. -/
structure Stack : Type where
  id : Str
  name : Str
  description : Option Str
  cloud_name : Str
  stack_type : Str
  stack_resources : List StackResource
  blueprint : Option Blueprint

def cloudProviderJson (cp : CloudProvider) : JValue :=
  .obj [("id".toList, .str cp.id), ("name".toList, .str cp.name),
    ("display_name".toList, .str cp.display_name)]

def resourceTypeJson (rt : ResourceType) : JValue :=
  .obj [("id".toList, .str rt.id), ("name".toList, .str rt.name),
    ("category".toList, .str rt.category)]

/-- The per-resource JSON object built inside `from_blueprint` (fields in
the source's insertion order; `serde_json`'s map re-sorts keys, which no
claim observes). -/
def blueprintResourceJson (r : BlueprintResource) : JValue :=
  .obj ([("id".toList, .str r.id), ("name".toList, .str r.name)] ++
    (match r.description with
      | some d => [("description".toList, JValue.str d)]
      | none => []) ++
    [("resource_type".toList, resourceTypeJson r.resource_type),
     ("cloud_provider".toList, cloudProviderJson r.cloud_provider),
     ("configuration".toList, r.configuration),
     ("cloud_specific_properties".toList, .obj r.cloud_specific_properties)])

/-- The per-stack-resource JSON object built inside `from_stack`. -/
def stackResourceJson (r : StackResource) : JValue :=
  .obj ([("id".toList, .str r.id), ("name".toList, .str r.name)] ++
    (match r.description with
      | some d => [("description".toList, JValue.str d)]
      | none => []) ++
    [("resource_type".toList, resourceTypeJson r.resource_type),
     ("cloud_provider".toList, cloudProviderJson r.cloud_provider),
     ("configuration".toList, .obj r.configuration)])

/-- `format!("resources[{}]", index)`. -/
def resPre (i : Nat) : Str := "resources[".toList ++ natToStr i ++ "]".toList

/-- The flattened per-resource inserts of `from_blueprint` (the loop body),
in the source's order. -/
def blueprintResourcePairs (i : Nat) (r : BlueprintResource) : List (Str × JValue) :=
  [(resPre i ++ ".id".toList, .str r.id),
   (resPre i ++ ".name".toList, .str r.name)] ++
  (match r.description with
    | some d => [(resPre i ++ ".description".toList, JValue.str d)]
    | none => []) ++
  [(resPre i ++ ".resource_type.id".toList, .str r.resource_type.id),
   (resPre i ++ ".resource_type.name".toList, .str r.resource_type.name),
   (resPre i ++ ".resource_type.category".toList, .str r.resource_type.category),
   (resPre i ++ ".cloud_provider.id".toList, .str r.cloud_provider.id),
   (resPre i ++ ".cloud_provider.name".toList, .str r.cloud_provider.name),
   (resPre i ++ ".cloud_provider.display_name".toList, .str r.cloud_provider.display_name),
   (resPre i ++ ".configuration".toList, r.configuration)] ++
  r.cloud_specific_properties.map
    (fun kv => (resPre i ++ ".cloud_specific_properties.".toList ++ kv.1, kv.2))

/-- The inserts of `from_blueprint` made before the resource loop. -/
def blueprintHead (b : Blueprint) : List (Str × JValue) :=
  [("blueprint.id".toList, .str b.id), ("blueprint.name".toList, .str b.name)] ++
  (match b.description with
    | some d => [("blueprint.description".toList, JValue.str d)]
    | none => []) ++
  [("resources".toList, .arr (b.resources.map blueprintResourceJson))]

/-- The inserts of `from_blueprint` made after the resource loop. -/
def blueprintTail (b : Blueprint) : List (Str × JValue) :=
  [("supported_cloud_providers".toList,
    .arr (b.supported_cloud_providers.map cloudProviderJson))]

/-- The complete insertion sequence of `VariableContextBuilder::from_blueprint`. -/
def fromBlueprintPairs (b : Blueprint) : List (Str × JValue) :=
  blueprintHead b ++
  (b.resources.enum.flatMap (fun ir => blueprintResourcePairs ir.1 ir.2)) ++
  blueprintTail b

/-- `VariableContextBuilder::from_blueprint`. -/
def from_blueprint (b : Blueprint) : VariableContext :=
  ⟨insertAll [] (fromBlueprintPairs b)⟩

/-- `format!("stack_resources[{}]", index)`. -/
def stackResPre (i : Nat) : Str := "stack_resources[".toList ++ natToStr i ++ "]".toList

/-- The flattened per-stack-resource inserts of `from_stack` (the loop
body), in the source's order. -/
def stackResourcePairs (i : Nat) (r : StackResource) : List (Str × JValue) :=
  [(stackResPre i ++ ".id".toList, .str r.id),
   (stackResPre i ++ ".name".toList, .str r.name)] ++
  (match r.description with
    | some d => [(stackResPre i ++ ".description".toList, JValue.str d)]
    | none => []) ++
  [(stackResPre i ++ ".resource_type.id".toList, .str r.resource_type.id),
   (stackResPre i ++ ".resource_type.name".toList, .str r.resource_type.name),
   (stackResPre i ++ ".resource_type.category".toList, .str r.resource_type.category),
   (stackResPre i ++ ".cloud_provider.id".toList, .str r.cloud_provider.id),
   (stackResPre i ++ ".cloud_provider.name".toList, .str r.cloud_provider.name),
   (stackResPre i ++ ".cloud_provider.display_name".toList, .str r.cloud_provider.display_name)] ++
  r.configuration.map
    (fun kv => (stackResPre i ++ ".configuration.".toList ++ kv.1, kv.2))

/-- The inserts of `from_stack` made before the resource loop. -/
def stackHead (s : Stack) : List (Str × JValue) :=
  [("stack.id".toList, .str s.id), ("stack.name".toList, .str s.name)] ++
  (match s.description with
    | some d => [("stack.description".toList, JValue.str d)]
    | none => []) ++
  [("stack.cloud_name".toList, .str s.cloud_name),
   ("stack.stack_type".toList, .str s.stack_type)] ++
  [("stack_resources".toList, .arr (s.stack_resources.map stackResourceJson))]

/-- The inserts of `from_stack` made after the resource loop (blueprint
metadata, when the stack embeds its blueprint). -/
def stackTail (s : Stack) : List (Str × JValue) :=
  match s.blueprint with
    | some bp =>
      [("blueprint.id".toList, JValue.str bp.id),
       ("blueprint.name".toList, JValue.str bp.name)] ++
      (match bp.description with
        | some d => [("blueprint.description".toList, JValue.str d)]
        | none => [])
    | none => []

/-- The complete insertion sequence of `VariableContextBuilder::from_stack`. -/
def fromStackPairs (s : Stack) : List (Str × JValue) :=
  stackHead s ++
  (s.stack_resources.enum.flatMap (fun ir => stackResourcePairs ir.1 ir.2)) ++
  stackTail s

/-- `VariableContextBuilder::from_stack`. -/
def from_stack (s : Stack) : VariableContext :=
  ⟨insertAll [] (fromStackPairs s)⟩

/-- The suffixes (after `resources[i]`) of the keys inserted for one
blueprint resource. -/
def blueprintSuffixes (r : BlueprintResource) : List Str :=
  [".id".toList, ".name".toList] ++
  (match r.description with
    | some _ => [".description".toList]
    | none => []) ++
  [".resource_type.id".toList, ".resource_type.name".toList,
   ".resource_type.category".toList, ".cloud_provider.id".toList,
   ".cloud_provider.name".toList, ".cloud_provider.display_name".toList,
   ".configuration".toList] ++
  r.cloud_specific_properties.map (fun kv => ".cloud_specific_properties.".toList ++ kv.1)

/-- The suffixes (after `stack_resources[i]`) of the keys inserted for one
stack resource. -/
def stackSuffixes (r : StackResource) : List Str :=
  [".id".toList, ".name".toList] ++
  (match r.description with
    | some _ => [".description".toList]
    | none => []) ++
  [".resource_type.id".toList, ".resource_type.name".toList,
   ".resource_type.category".toList, ".cloud_provider.id".toList,
   ".cloud_provider.name".toList, ".cloud_provider.display_name".toList] ++
  r.configuration.map (fun kv => ".configuration.".toList ++ kv.1)

/-- Decoding of a decimal character sequence (used only to prove `natToStr`
injective). -/
def strVal (s : Str) : Nat := s.foldl (fun a c => 10 * a + (c.toNat - 48)) 0

/-! ### Variable suggestions and Levenshtein distance
(src/idp-cli/src/template_processor.rs) -/

/-- `str::len()`: the UTF-8 byte length of a string, as the sum of the
characters' encoded sizes. -/
def byteLen (s : Str) : Nat := (s.map Char.utf8Size).sum

/-- Whether `needle` is an initial segment of `hay` (helper for `contains`). -/
def startsWithStr : Str → Str → Bool
  | _, [] => true
  | [], _ :: _ => false
  | h :: hs, n :: ns => decide (h = n) && startsWithStr hs ns

/-- `str::contains` on valid UTF-8: a byte-substring match always falls on
character boundaries, so it is character-list containment. -/
def containsSub : Str → Str → Bool
  | [], needle => needle.isEmpty
  | h :: hs, needle => startsWithStr (h :: hs) needle || containsSub hs needle

/-- The byte slice `&s[..n]` as a character list: panics (like Rust) when `n`
is past the end or not a character boundary. -/
def takeBytes : Nat → Str → PanicOr Str
  | 0, _ => .ok []
  | _ + 1, [] => .panics
  | n + 1, c :: cs =>
    if c.utf8Size ≤ n + 1 then (takeBytes (n + 1 - c.utf8Size) cs).map (fun r => c :: r)
    else .panics

/-- Read `m[i][j]` from the matrix; out-of-range reads default to 0 (the
source's accesses are always in bounds, since the character count never
exceeds the byte count). -/
def mget (m : List (List Nat)) (i j : Nat) : Nat := ((m.get? i).getD []).getD j 0

/-- Write `m[i][j] = v` (out-of-range writes are dropped; the source's writes
are always in bounds). -/
def mset (m : List (List Nat)) (i j : Nat) (v : Nat) : List (List Nat) :=
  m.set i ((((m.get? i).getD []).set j v))

/-- `TemplateProcessor::levenshtein_distance`, byte-for-byte faithful: the
early returns and the matrix dimensions use the BYTE lengths `s.len()`, while
the fill loops run over `chars().enumerate()` (character positions); the two
border-initialization loops over the all-zero matrix are modelled by building
the bordered matrix directly. -/
def levenshtein_distance (s1 s2 : Str) : Nat :=
  let len1 := byteLen s1
  let len2 := byteLen s2
  if len1 = 0 then len2
  else if len2 = 0 then len1
  else
    let init : List (List Nat) :=
      (List.range (len1 + 1)).map (fun i =>
        (List.range (len2 + 1)).map (fun j => if j = 0 then i else if i = 0 then j else 0))
    let final := s1.enum.foldl (fun m ic =>
      s2.enum.foldl (fun m jc =>
        let cost := if ic.2 = jc.2 then 0 else 1
        mset m (ic.1 + 1) (jc.1 + 1)
          (min (min (mget m ic.1 (jc.1 + 1) + 1) (mget m (ic.1 + 1) jc.1 + 1))
            (mget m ic.1 jc.1 + cost))) m) init
    mget final len1 len2

/-- `TemplateProcessor::is_similar`. `to_lowercase` is modelled per character
(on ASCII, where all this repository's paths live, Rust lowercases exactly per
character); the `[..3]` byte slices can panic on a non-boundary index, which
`PanicOr` propagates. -/
def is_similar (search candidate : Str) : PanicOr Bool :=
  let sl := search.map Char.toLower
  let cl := candidate.map Char.toLower
  if sl = cl then .ok true
  else if containsSub cl sl || containsSub sl cl then .ok true
  else if 3 ≤ byteLen sl ∧ 3 ≤ byteLen cl then
    match takeBytes 3 sl, takeBytes 3 cl with
    | .ok p1, .ok p2 =>
      if p1 = p2 then .ok true else .ok (decide (levenshtein_distance sl cl ≤ 2))
    | _, _ => .panics
  else .ok (decide (levenshtein_distance sl cl ≤ 2))

/-- `true` exactly on a non-panicking, positive similarity check. -/
def isSimOk (p : PanicOr Bool) : Bool :=
  match p with
  | .ok true => true
  | _ => false

/-- `true` exactly on a non-panicking check. -/
def noPanic {α : Type} (p : PanicOr α) : Bool :=
  match p with
  | .panics => false
  | .ok _ => true

/-- Lexicographic (code-point, equivalently UTF-8 byte) order on strings, as
`String::cmp` compares. -/
def lexLe : Str → Str → Bool
  | [], _ => true
  | _ :: _, [] => false
  | a :: s, b :: t => if a = b then lexLe s t else decide (a < b)

/-- Stable insertion into a sorted list (helper for the sorts below). -/
def insertOrd {α : Type} (le : α → α → Bool) (x : α) : List α → List α
  | [] => [x]
  | y :: ys => if le x y then x :: y :: ys else y :: insertOrd le x ys

/-- A stable sort; Rust's `sort`/`sort_by` are stable, and a stable sort's
output is determined by the comparator, so any stable algorithm is a faithful
model. -/
def sortStable {α : Type} (le : α → α → Bool) : List α → List α
  | [] => []
  | x :: xs => insertOrd le x (sortStable le xs)

/-- `VariableContext::list_all`: all pairs, sorted by key. -/
def list_all (ctx : VariableContext) : List (Str × JValue) :=
  sortStable (fun a b => lexLe a.1 b.1) ctx.vars

/-- `Vec::join("\n")`. -/
def joinNL : List Str → Str
  | [] => []
  | [s] => s
  | s :: r :: rest => s ++ '\n' :: joinNL (r :: rest)

/-- The lazy `filter_map(...).take(5)` pipeline of
`suggest_similar_variables`: names are tested in order until the budget is
exhausted (names past the fifth hit are never tested, so they cannot panic). -/
def collectSimilar (name : Str) : List (Str × JValue) → Nat → PanicOr (List Str)
  | _, 0 => .ok []
  | [], _ + 1 => .ok []
  | kv :: rest, n + 1 =>
    match is_similar name kv.1 with
    | .panics => .panics
    | .ok true => (collectSimilar name rest n).map (fun l => kv.1 :: l)
    | .ok false => collectSimilar name rest (n + 1)

/-- `TemplateProcessor::suggest_similar_variables`. -/
def suggest_similar_variables (ctx : VariableContext) (var_name : Str) : PanicOr Str :=
  let all_vars := list_all ctx
  if all_vars.isEmpty then
    .ok ("No variables are available in the current context.\nUse the \'list-variables\' command to see what variables are available.".toList)
  else
    match collectSimilar var_name all_vars 5 with
    | .panics => .panics
    | .ok [] =>
      .ok ("Did you mean one of these variables?\n".toList ++
        joinNL ((all_vars.take 10).map (fun kv => "  - ".toList ++ kv.1)) ++
        "\n\nUse the \'list-variables\' command to see all available variables.".toList)
    | .ok (s :: rest) =>
      .ok ("Did you mean one of these?\n".toList ++
        joinNL ((sortStable lexLe (s :: rest)).map (fun n => "  - ".toList ++ n)))

/-- An edit script aligning two strings: `n` counts the substitutions,
insertions and deletions used (copies are free). The true Levenshtein
distance of `s` and `t` is the least `n` with `Edits s t n`. -/
inductive Edits : Str → Str → Nat → Prop where
  | nil : Edits [] [] 0
  | copy (a : Char) {s t : Str} {n : Nat} : Edits s t n → Edits (a :: s) (a :: t) n
  | subst (a b : Char) {s t : Str} {n : Nat} : Edits s t n → Edits (a :: s) (b :: t) (n + 1)
  | ins (b : Char) {s t : Str} {n : Nat} : Edits s t n → Edits s (b :: t) (n + 1)
  | del (a : Char) {s t : Str} {n : Nat} : Edits s t n → Edits (a :: s) t (n + 1)

/-- The textbook recursive Levenshtein distance (front recursion). -/
def editDist : Str → Str → Nat
  | [], t => t.length
  | s, [] => s.length
  | a :: s, b :: t =>
    if a = b then editDist s t
    else 1 + min (editDist s t) (min (editDist (a :: s) t) (editDist s (b :: t)))

/-- The distance the DP cell `m[x][y]` is meant to hold: the edit distance of
the length-`x` prefix of `s1` and the length-`y` prefix of `s2` (stated via
`editDist` on the reversed prefixes, since `editDist` recurses on the front). -/
def edP (s1 s2 : Str) (x y : Nat) : Nat :=
  editDist ((s1.take x).reverse) ((s2.take y).reverse)

/-- The matrix has `r` rows of `c` entries each. -/
def Dims (r c : Nat) (m : List (List Nat)) : Prop :=
  m.length = r ∧ ∀ x, x < r → ((m.get? x).getD []).length = c

/-! ### Theorems -/

section AssocLemmas

variable {κ ν : Type} [DecidableEq κ]

theorem lookupPair_insertPair_self (m : List (κ × ν)) (k : κ) (v : ν) :
    lookupPair (insertPair m k v) k = some v := by
  induction m with
  | nil => simp [insertPair, lookupPair]
  | cons hd tl ih =>
    obtain ⟨k', v'⟩ := hd
    by_cases h : k' = k <;> simp [insertPair, lookupPair, h, ih]

theorem lookupPair_insertPair_ne (m : List (κ × ν)) (k k' : κ) (v : ν)
    (h : k ≠ k') : lookupPair (insertPair m k v) k' = lookupPair m k' := by
  induction m with
  | nil => simp [insertPair, lookupPair, h]
  | cons hd tl ih =>
    obtain ⟨k₀, v₀⟩ := hd
    by_cases h₀ : k₀ = k
    · subst h₀
      simp [insertPair, lookupPair, h]
    · simp only [insertPair, if_neg h₀]
      by_cases h₁ : k₀ = k' <;> simp [lookupPair, h₁, ih]

theorem lookupPair_erasePair_self (m : List (κ × ν)) (k : κ) :
    lookupPair (erasePair m k) k = none := by
  induction m with
  | nil => simp [erasePair, lookupPair]
  | cons hd tl ih =>
    obtain ⟨k', v'⟩ := hd
    by_cases h : k' = k <;> simp [erasePair, lookupPair, h, ih]

theorem lookupPair_erasePair_ne (m : List (κ × ν)) (k k' : κ) (h : k ≠ k') :
    lookupPair (erasePair m k) k' = lookupPair m k' := by
  induction m with
  | nil => simp [erasePair]
  | cons hd tl ih =>
    obtain ⟨k₀, v₀⟩ := hd
    by_cases h₀ : k₀ = k
    · subst h₀
      have hne : k₀ ≠ k' := h
      simp [erasePair, lookupPair, if_neg hne, ih]
    · by_cases h₁ : k₀ = k'
      · subst h₁
        simp [erasePair, lookupPair, if_neg (fun hh => h₀ hh), ih]
      · simp [erasePair, lookupPair, h₀, h₁, ih]

end AssocLemmas

/-- CLAIM C1: `VariableContext::get` never errors or panics; a malformed
array index yields `None`.  This is violated: on the path `"a["` (an
unclosed bracket at the end of a segment), `get` computes the index
substring as `&part[bracket_pos + 1..part.len() - 1]`, a slice whose start
(2) exceeds its end (1), which panics — even on the empty store. -/
theorem get_panics_on_unclosed_bracket :
    VariableContext.get ⟨[]⟩ "a[".toList = .panics := rfl

/-- CLAIM C7 counterexample: for the first argument `5` — which is neither
absent nor the empty string — the helper outputs the fallback (the output
tracks the second argument), not the first argument's value unchanged. -/
theorem default_helper_num_gives_fallback :
    default_helper [.num 5, .str "x".toList] = .ok "x".toList ∧
    default_helper [.num 5, .str "y".toList] = .ok "y".toList := ⟨rfl, rfl⟩

/-- CLAIM C7 (amended): with two arguments, the helper outputs the first
argument's string content unchanged when that argument is a non-empty
string, and otherwise (absent value, non-string value, or empty string)
outputs the fallback's string content (the empty string when the fallback
itself is not a string). -/
theorem default_helper_spec (v fb : JValue) :
    (∀ s : Str, v.asStr = some s → s ≠ [] → default_helper [v, fb] = .ok s) ∧
    ((v.asStr).getD [] = [] → default_helper [v, fb] = .ok ((fb.asStr).getD [])) := by
  constructor
  · intro s hs hne
    simp [default_helper, hs, hne]
  · intro h
    simp [default_helper, h]

/-- Witness for C7: the amended statement applied at concrete inputs. -/
theorem default_helper_spec_witness :
    default_helper [.str "a".toList, .str "z".toList] = .ok "a".toList ∧
    default_helper [.num 5, .str "z".toList] = .ok "z".toList :=
  ⟨(default_helper_spec (.str "a".toList) (.str "z".toList)).1 "a".toList rfl (by decide),
   (default_helper_spec (.num 5) (.str "z".toList)).2 rfl⟩

/-- CLAIM C2: for every context and template whose placeholder paths all
resolve to nothing, `process_template` succeeds and renders each unresolved
placeholder as the empty string (never an error). -/
theorem process_template_missing_renders_empty (ctx : VariableContext)
    (tpl : List TemplateItem)
    (h : ∀ p ∈ placeholderPaths tpl, ctx.get p = .ok none) :
    process_template ctx tpl = .ok (renderAllMissing tpl) := by
  induction tpl with
  | nil => rfl
  | cons item rest ih =>
    cases item with
    | lit s =>
      have := ih (fun p hp => h p (by simpa [placeholderPaths] using hp))
      simp [process_template, renderAllMissing, this, PanicOr.map]
    | placeholder p =>
      have hp := h p (by simp [placeholderPaths])
      have := ih (fun q hq => h q (by simp [placeholderPaths, hq]))
      simp [process_template, renderAllMissing, hp, this, PanicOr.map]

/-- Witness for C2: the spec's own example, template `"{{missing.path}}"`
against the empty store, renders `""`. -/
theorem process_template_missing_witness :
    process_template ⟨[]⟩ [.lit "x=".toList, .placeholder "missing.path".toList] =
      .ok "x=".toList :=
  process_template_missing_renders_empty ⟨[]⟩
    [.lit "x=".toList, .placeholder "missing.path".toList]
    (fun p hp => by
      have : p = "missing.path".toList := by
        simpa [placeholderPaths] using hp
      subst this
      rfl)

theorem specDiscovered_nil (s : List Str) (t : TemplateFileType) :
    ¬ SpecDiscovered [] s t := by
  intro h
  cases h with
  | file hmem _ _ => simp at hmem
  | sub hmem _ _ => simp at hmem

theorem specDiscovered_cons (x : FsEntry) (rest : List FsEntry) (s : List Str)
    (t : TemplateFileType) :
    SpecDiscovered (x :: rest) s t ↔
      (match x with
        | .file fname => s = [fname] ∧ is_hidden fname = false ∧
            (fileExtension fname).bind TemplateFileType.from_extension = some t
        | .dir d cs => ∃ s', s = d :: s' ∧ is_hidden d = false ∧ SpecDiscovered cs s' t)
      ∨ SpecDiscovered rest s t := by
  constructor
  · intro h
    cases h with
    | file hmem hh ht =>
      rcases List.mem_cons.mp hmem with heq | hmem'
      · subst heq
        exact Or.inl ⟨rfl, hh, ht⟩
      · exact Or.inr (SpecDiscovered.file hmem' hh ht)
    | sub hmem hh hrec =>
      rcases List.mem_cons.mp hmem with heq | hmem'
      · subst heq
        exact Or.inl ⟨_, rfl, hh, hrec⟩
      · exact Or.inr (SpecDiscovered.sub hmem' hh hrec)
  · intro h
    rcases h with h | h
    · cases x with
      | file fname =>
        obtain ⟨hs, hh, ht⟩ := h
        subst hs
        exact SpecDiscovered.file (List.mem_cons_self _ _) hh ht
      | dir d cs =>
        obtain ⟨s', hs, hh, hrec⟩ := h
        subst hs
        exact SpecDiscovered.sub (List.mem_cons_self _ _) hh hrec
    · cases h with
      | file hmem hh ht => exact SpecDiscovered.file (List.mem_cons_of_mem _ hmem) hh ht
      | sub hmem hh hrec => exact SpecDiscovered.sub (List.mem_cons_of_mem _ hmem) hh hrec

theorem mem_discover_aux (pre : List Str) (children : List FsEntry)
    (rel : List Str) (t : TemplateFileType) :
    (⟨rel, t⟩ : TemplateFile) ∈ discover_aux pre children ↔
      ∃ s, rel = pre ++ s ∧ SpecDiscovered children s t := by
  induction pre, children using discover_aux.induct with
  | case1 pre =>
    simp [discover_aux]
    intro s _ h
    exact specDiscovered_nil s t h
  | case2 pre name rest ih =>
    simp only [discover_aux, List.mem_append]
    rw [ih]
    constructor
    · intro h
      rcases h with h | h
      · by_cases hh : is_hidden name
        · simp [hh] at h
        · simp only [hh, if_neg, Bool.false_eq_true, if_false] at h
          rcases hext : (fileExtension name).bind TemplateFileType.from_extension with _ | t'
          · simp [hext] at h
          · rw [hext] at h
            simp only [List.mem_singleton, TemplateFile.mk.injEq] at h
            obtain ⟨hrel, hteq⟩ := h
            subst hteq
            exact ⟨[name], hrel, (specDiscovered_cons _ _ _ _).mpr
              (Or.inl ⟨rfl, Bool.not_eq_true _ ▸ by simpa using hh, hext⟩)⟩
      · obtain ⟨s, hrel, hspec⟩ := h
        exact ⟨s, hrel, (specDiscovered_cons _ _ _ _).mpr (Or.inr hspec)⟩
    · intro h
      obtain ⟨s, hrel, hspec⟩ := h
      rcases (specDiscovered_cons _ _ _ _).mp hspec with hcase | hrest
      · obtain ⟨hs, hh, hext⟩ := hcase
        subst hs
        left
        simp [hh, hext, hrel]
      · exact Or.inr ⟨s, hrel, hrest⟩
  | case3 pre d cs rest ihdir ihrest =>
    simp only [discover_aux, List.mem_append]
    rw [ihrest]
    constructor
    · intro h
      rcases h with h | h
      · by_cases hh : is_hidden d
        · simp [hh] at h
        · simp only [hh, Bool.false_eq_true, if_false] at h
          rw [ihdir] at h
          obtain ⟨s', hrel, hspec⟩ := h
          refine ⟨d :: s', by simpa using hrel, ?_⟩
          exact (specDiscovered_cons _ _ _ _).mpr
            (Or.inl ⟨s', rfl, by simpa using hh, hspec⟩)
      · obtain ⟨s, hrel, hspec⟩ := h
        exact ⟨s, hrel, (specDiscovered_cons _ _ _ _).mpr (Or.inr hspec)⟩
    · intro h
      obtain ⟨s, hrel, hspec⟩ := h
      rcases (specDiscovered_cons _ _ _ _).mp hspec with hcase | hrest
      · obtain ⟨s', hs, hh, hrec⟩ := hcase
        subst hs
        left
        rw [if_neg (by simp [hh])]
        rw [ihdir]
        exact ⟨s', by simpa using hrel, hrec⟩
      · exact Or.inr ⟨s, hrel, hrest⟩

/-- CLAIM C5: `discover_templates` returns exactly the non-hidden regular
files (under non-hidden directories; the root is exempt) with a recognized
extension, at their on-disk relative paths; everything else is omitted. -/
theorem discover_templates_exact (rootChildren : List FsEntry) (rel : List Str)
    (t : TemplateFileType) :
    (⟨rel, t⟩ : TemplateFile) ∈ discover_templates rootChildren ↔
      SpecDiscovered rootChildren rel t := by
  rw [discover_templates, mem_discover_aux]
  constructor
  · rintro ⟨s, hrel, hspec⟩
    simpa [hrel] using hspec
  · intro h
    exact ⟨rel, by simp, h⟩

theorem ensure_directory_exists_files (fs : Fs) (p : Path) :
    (ensure_directory_exists fs p).files = fs.files := by
  unfold ensure_directory_exists Fs.createDirAll
  split <;> rfl

theorem write_with_warning_files (fs : Fs) (path : Path) (content : Str) :
    (write_with_warning fs path content).1.files =
      insertPair (erasePair (insertPair fs.files (with_extension_tmp path) content)
        (with_extension_tmp path)) path content := by
  simp only [write_with_warning, Fs.writeFile, Fs.rename, lookupPair_insertPair_self]

theorem write_processed_files_cons (output_dir : Path) (fs : Fs) (f : ProcessedFile)
    (rest : List ProcessedFile) :
    write_processed_files output_dir fs (f :: rest) =
      (let output_path := output_dir ++ f.relative_path
       let fs1 := if output_path = [] then fs
         else ensure_directory_exists fs output_path.dropLast
       let r := write_with_warning fs1 output_path f.content
       let r2 := write_processed_files output_dir r.1 rest
       (r2.1, output_path :: r2.2.1, r.2 ++ r2.2.2)) := rfl

/-- The three post-write lookup facts about a single atomic write. -/
theorem lookup_single_write (F : List (Path × Str)) (T : Path) (c : Str) :
    lookupPair (insertPair (erasePair (insertPair F (with_extension_tmp T) c)
        (with_extension_tmp T)) T c) T = some c ∧
    (∀ p : Path, p ≠ T → p ≠ with_extension_tmp T →
      lookupPair (insertPair (erasePair (insertPair F (with_extension_tmp T) c)
        (with_extension_tmp T)) T c) p = lookupPair F p) ∧
    (with_extension_tmp T ≠ T →
      lookupPair (insertPair (erasePair (insertPair F (with_extension_tmp T) c)
        (with_extension_tmp T)) T c) (with_extension_tmp T) = none) := by
  refine ⟨lookupPair_insertPair_self _ _ _, ?_, ?_⟩
  · intro p hpT hptmp
    rw [lookupPair_insertPair_ne _ _ _ _ (fun h => hpT h.symm),
      lookupPair_erasePair_ne _ _ _ (fun h => hptmp h.symm),
      lookupPair_insertPair_ne _ _ _ _ (fun h => hptmp h.symm)]
  · intro hne
    rw [lookupPair_insertPair_ne _ _ _ _ (fun h => hne h.symm),
      lookupPair_erasePair_self]

/-- Processing one file performs exactly one atomic write on the files map
and recurses on the resulting filesystem. -/
theorem write_processed_files_cons_step (output_dir : Path) (fs : Fs)
    (f : ProcessedFile) (rest : List ProcessedFile) :
    ∃ fs2 : Fs,
      fs2.files = insertPair (erasePair
          (insertPair fs.files (with_extension_tmp (targetPath output_dir f)) f.content)
          (with_extension_tmp (targetPath output_dir f)))
        (targetPath output_dir f) f.content ∧
      (write_processed_files output_dir fs (f :: rest)).1 =
        (write_processed_files output_dir fs2 rest).1 ∧
      (write_processed_files output_dir fs (f :: rest)).2.1 =
        targetPath output_dir f :: (write_processed_files output_dir fs2 rest).2.1 := by
  refine ⟨(write_with_warning (if output_dir ++ f.relative_path = [] then fs
      else ensure_directory_exists fs (output_dir ++ f.relative_path).dropLast)
      (output_dir ++ f.relative_path) f.content).1, ?_, rfl, rfl⟩
  rw [write_with_warning_files]
  have hfiles : (if output_dir ++ f.relative_path = [] then fs
      else ensure_directory_exists fs (output_dir ++ f.relative_path).dropLast).files =
      fs.files := by
    split
    · rfl
    · rw [ensure_directory_exists_files]
  rw [hfiles]
  rfl

theorem write_processed_files_aux (output_dir : Path) (files : List ProcessedFile)
    (fs : Fs)
    (H1 : (files.map (targetPath output_dir)).Nodup)
    (H2 : ∀ f ∈ files, ∀ g ∈ files,
      targetPath output_dir f = with_extension_tmp (targetPath output_dir g) →
      targetPath output_dir f = targetPath output_dir g) :
    (write_processed_files output_dir fs files).2.1 =
        files.map (targetPath output_dir) ∧
    (∀ f ∈ files,
      lookupPair (write_processed_files output_dir fs files).1.files
        (targetPath output_dir f) = some f.content) ∧
    (∀ p : Path, p ∉ files.map (targetPath output_dir) →
      p ∉ files.map (fun g => with_extension_tmp (targetPath output_dir g)) →
      lookupPair (write_processed_files output_dir fs files).1.files p =
        lookupPair fs.files p) ∧
    (∀ f ∈ files,
      with_extension_tmp (targetPath output_dir f) ∉
        files.map (targetPath output_dir) →
      lookupPair (write_processed_files output_dir fs files).1.files
        (with_extension_tmp (targetPath output_dir f)) = none) := by
  induction files generalizing fs with
  | nil =>
    exact ⟨rfl, by simp, fun p _ _ => rfl, by simp⟩
  | cons f rest ih =>
    rw [List.map_cons, List.nodup_cons] at H1
    obtain ⟨hT_not_rest, H1'⟩ := H1
    have H2' : ∀ a ∈ rest, ∀ b ∈ rest,
        targetPath output_dir a = with_extension_tmp (targetPath output_dir b) →
        targetPath output_dir a = targetPath output_dir b :=
      fun a ha b hb => H2 a (List.mem_cons_of_mem _ ha) b (List.mem_cons_of_mem _ hb)
    obtain ⟨fs2, hfs2files, e1, e2⟩ :=
      write_processed_files_cons_step output_dir fs f rest
    obtain ⟨ih1, ih2, ih3, ih4⟩ := ih fs2 H1' H2'
    obtain ⟨w1, w2, w3⟩ := lookup_single_write fs.files (targetPath output_dir f) f.content
    have hT_not_tmp_rest : targetPath output_dir f ∉
        rest.map (fun g => with_extension_tmp (targetPath output_dir g)) := by
      intro hmem
      rcases List.mem_map.mp hmem with ⟨g, hg, hgeq⟩
      have heq := H2 f (List.mem_cons_self _ _) g (List.mem_cons_of_mem _ hg) hgeq.symm
      exact hT_not_rest (heq ▸ List.mem_map_of_mem _ hg)
    refine ⟨?_, ?_, ?_, ?_⟩
    · rw [e2, ih1, List.map_cons]
    · intro f' hf'
      rcases List.mem_cons.mp hf' with heq | hmem
      · subst heq
        rw [e1, ih3 _ hT_not_rest hT_not_tmp_rest, hfs2files]
        exact w1
      · rw [e1]
        exact ih2 f' hmem
    · intro p hp1 hp2
      rw [List.map_cons, List.mem_cons] at hp1 hp2
      obtain ⟨hpT, hp1'⟩ := not_or.mp hp1
      obtain ⟨hptmp, hp2'⟩ := not_or.mp hp2
      rw [e1, ih3 p hp1' hp2', hfs2files]
      exact w2 p hpT hptmp
    · intro f' hf' hnot
      rcases List.mem_cons.mp hf' with heq | hmem
      · subst heq
        rw [List.map_cons, List.mem_cons] at hnot
        obtain ⟨htmpT, htmp_not_rest⟩ := not_or.mp hnot
        by_cases hcase : with_extension_tmp (targetPath output_dir f') ∈
            rest.map (fun g => with_extension_tmp (targetPath output_dir g))
        · rcases List.mem_map.mp hcase with ⟨g, hg, hgeq⟩
          rw [e1, ← hgeq]
          exact ih4 g hg (hgeq ▸ htmp_not_rest)
        · rw [e1, ih3 _ htmp_not_rest hcase, hfs2files]
          exact w3 htmpT
      · have hn : with_extension_tmp (targetPath output_dir f') ∉
            rest.map (targetPath output_dir) := by
          rw [List.map_cons, List.mem_cons] at hnot
          exact (not_or.mp hnot).2
        rw [e1]
        exact ih4 f' hmem hn

/-- CLAIM C6 counterexample: writing `[("a.tmp", "B"), ("a.tf", "A")]` under
the empty output root succeeds, yet afterwards the target `a.tmp` does not
exist: the temporary path of `a.tf` is `a.tmp` (extension replaced by
`tmp`), so writing `a.tf` renames the already-written target away. -/
theorem write_processed_files_destroys_tmp_target :
    lookupPair (write_processed_files [] ⟨[], []⟩
      [⟨["a.tmp".toList], "B".toList⟩, ⟨["a.tf".toList], "A".toList⟩]).1.files
      ["a.tmp".toList] = none := rfl

/-- CLAIM C6 (amended): an empty list returns an empty result and changes
nothing; and whenever the target paths are pairwise distinct and no target
path coincides with the temporary path (`with_extension("tmp")`) of a
different target, every target exists afterwards with exactly the given
content, and no temporary write-artifact (a temporary path that is not
itself one of the targets) remains. -/
theorem write_processed_files_spec (output_dir : Path) (fs : Fs)
    (files : List ProcessedFile)
    (H1 : (files.map (targetPath output_dir)).Nodup)
    (H2 : ∀ f ∈ files, ∀ g ∈ files,
      targetPath output_dir f = with_extension_tmp (targetPath output_dir g) →
      targetPath output_dir f = targetPath output_dir g) :
    write_processed_files output_dir fs [] = (fs, [], []) ∧
    (write_processed_files output_dir fs files).2.1 =
      files.map (targetPath output_dir) ∧
    (∀ f ∈ files,
      lookupPair (write_processed_files output_dir fs files).1.files
        (targetPath output_dir f) = some f.content) ∧
    (∀ f ∈ files,
      with_extension_tmp (targetPath output_dir f) ∉
        files.map (targetPath output_dir) →
      lookupPair (write_processed_files output_dir fs files).1.files
        (with_extension_tmp (targetPath output_dir f)) = none) := by
  obtain ⟨h1, h2, _, h4⟩ := write_processed_files_aux output_dir files fs H1 H2
  exact ⟨rfl, h1, h2, h4⟩

/-- Witness for C6: two files in a shared fresh directory (spec scenario 6). -/
theorem write_processed_files_spec_witness :
    lookupPair (write_processed_files ["out".toList] ⟨[], []⟩
      [⟨["d".toList, "x.tf".toList], "X".toList⟩,
       ⟨["d".toList, "y.tf".toList], "Y".toList⟩]).1.files
      ["out".toList, "d".toList, "x.tf".toList] = some "X".toList := by
  have h := write_processed_files_spec ["out".toList] ⟨[], []⟩
    [⟨["d".toList, "x.tf".toList], "X".toList⟩,
     ⟨["d".toList, "y.tf".toList], "Y".toList⟩]
    (by decide) (by decide)
  exact h.2.2.1 _ (List.mem_cons_self _ _)

section MergeLemmas

variable {κ ν : Type} [DecidableEq κ]

theorem insertAll_append (m : List (κ × ν)) (a b : List (κ × ν)) :
    insertAll m (a ++ b) = insertAll (insertAll m a) b := by
  induction a generalizing m with
  | nil => rfl
  | cons hd tl ih =>
    obtain ⟨k, v⟩ := hd
    simp [insertAll, ih]

theorem lookupPair_insertAll_not_mem (m : List (κ × ν)) (pairs : List (κ × ν)) (k : κ)
    (h : k ∉ pairs.map Prod.fst) :
    lookupPair (insertAll m pairs) k = lookupPair m k := by
  induction pairs generalizing m with
  | nil => rfl
  | cons hd tl ih =>
    obtain ⟨k', v'⟩ := hd
    rw [List.map_cons, List.mem_cons] at h
    push_neg at h
    rw [insertAll, ih _ h.2, lookupPair_insertPair_ne _ _ _ _ (Ne.symm h.1)]

theorem containsKey_insertAll_not_mem (m : List (κ × ν)) (pairs : List (κ × ν)) (k : κ)
    (h : k ∉ pairs.map Prod.fst) :
    containsKey (insertAll m pairs) k = containsKey m k := by
  unfold containsKey
  rw [lookupPair_insertAll_not_mem _ _ _ h]

theorem containsKey_insertPair_ne (m : List (κ × ν)) (k k' : κ) (v : ν) (h : k ≠ k') :
    containsKey (insertPair m k v) k' = containsKey m k' := by
  unfold containsKey
  rw [lookupPair_insertPair_ne _ _ _ _ h]

theorem lookupPair_insertAll_of_mem (m : List (κ × ν)) (pairs : List (κ × ν)) (k : κ) (v : ν)
    (hnd : (pairs.map Prod.fst).Nodup) (hmem : (k, v) ∈ pairs) :
    lookupPair (insertAll m pairs) k = some v := by
  induction pairs generalizing m with
  | nil => cases hmem
  | cons hd tl ih =>
    obtain ⟨k', v'⟩ := hd
    rw [List.map_cons, List.nodup_cons] at hnd
    rcases List.mem_cons.mp hmem with heq | hmem'
    · obtain ⟨hk, hv⟩ := Prod.mk.injEq .. ▸ heq
      subst hk
      subst hv
      rw [insertAll, lookupPair_insertAll_not_mem _ _ _ hnd.1, lookupPair_insertPair_self]
    · rw [insertAll]
      exact ih (insertPair m k' v') hnd.2 hmem'

end MergeLemmas

theorem warnIfPresent_fst (st : List (Str × JValue) × List Str) (k : Str) :
    (warnIfPresent st k).1 = st.1 := by
  unfold warnIfPresent
  split <;> rfl

theorem warnIfPresent_eq (st : List (Str × JValue) × List Str) (k : Str) :
    warnIfPresent st k = (st.1, st.2 ++ (if containsKey st.1 k then [k] else [])) := by
  unfold warnIfPresent
  split
  · simp [*]
  · simp [*]

theorem warnIfPresent_snd (st : List (Str × JValue) × List Str) (k : Str) :
    (warnIfPresent st k).2 = st.2 ++ (if containsKey st.1 k then [k] else []) := by
  rw [warnIfPresent_eq]

theorem sizeOf_val_lt_obj (fields : List (Str × JValue)) (k : Str) (val : JValue)
    (h : (k, val) ∈ fields) : sizeOf val < sizeOf (JValue.obj fields) := by
  induction fields with
  | nil => cases h
  | cons hd tl ih =>
    rcases List.mem_cons.mp h with heq | hmem
    · subst heq
      simp only [JValue.obj.sizeOf_spec, List.cons.sizeOf_spec, Prod.mk.sizeOf_spec]
      omega
    · have := ih hmem
      simp only [JValue.obj.sizeOf_spec, List.cons.sizeOf_spec] at this ⊢
      omega

theorem sizeOf_item_lt_arr (items : List JValue) (val : JValue)
    (h : val ∈ items) : sizeOf val < sizeOf (JValue.arr items) := by
  induction items with
  | nil => cases h
  | cons hd tl ih =>
    rcases List.mem_cons.mp h with heq | hmem
    · subst heq
      simp only [JValue.arr.sizeOf_spec, List.cons.sizeOf_spec]
      omega
    · have := ih hmem
      simp only [JValue.arr.sizeOf_spec, List.cons.sizeOf_spec] at this ⊢
      omega

theorem flattenObjFields_spec (pre : Str) :
    ∀ fields : List (Str × JValue),
      (∀ kv ∈ fields, ∀ (st' : List (Str × JValue) × List Str) (pre' : Str),
        FlattenSpec st' pre' kv.2) →
      ∀ st : List (Str × JValue) × List Str,
        ((derivedPairsObj pre fields).map Prod.fst).Nodup →
        flattenObjFields st pre fields =
          (insertAll st.1 (derivedPairsObj pre fields),
           st.2 ++ ((derivedPairsObj pre fields).map Prod.fst).filter
             (fun k => containsKey st.1 k)) := by
  intro fields
  induction fields with
  | nil =>
    intro _ st _
    simp [flattenObjFields, derivedPairsObj, insertAll]
  | cons hd rest ihl =>
    obtain ⟨key, val⟩ := hd
    intro IH st hnd
    have IH' : ∀ kv ∈ rest, ∀ (st' : List (Str × JValue) × List Str) (pre' : Str),
        FlattenSpec st' pre' kv.2 :=
      fun kv hkv => IH kv (List.mem_cons_of_mem _ hkv)
    have hval : ∀ (st' : List (Str × JValue) × List Str) (pre' : Str),
        FlattenSpec st' pre' val := IH (key, val) (List.mem_cons_self _ _)
    simp only [flattenObjFields, derivedPairsObj, warnIfPresent_fst, warnIfPresent_snd]
      at hnd ⊢
    by_cases hcomp : val.isComposite
    · simp only [hcomp, if_true] at hnd ⊢
      simp only [List.map_cons, List.map_append, List.cons_append, List.nodup_cons] at hnd
      obtain ⟨hnp, hnd2⟩ := hnd
      obtain ⟨hndI, hndR, hdisj⟩ := List.nodup_append.mp hnd2
      rw [List.mem_append, not_or] at hnp
      rw [hval _ _ hndI, ihl IH' _ hndR]
      simp only [Prod.mk.injEq]
      constructor
      · exact (insertAll_append _ _ _).symm
      · have hfcI : ((derivedPairs (if pre = [] then key else pre ++ ".".toList ++ key)
              val).map Prod.fst).filter
              (fun k => containsKey (insertPair st.1
                (if pre = [] then key else pre ++ ".".toList ++ key) val) k) =
            ((derivedPairs (if pre = [] then key else pre ++ ".".toList ++ key)
              val).map Prod.fst).filter (fun k => containsKey st.1 k) :=
          List.filter_congr (fun k hk =>
            containsKey_insertPair_ne st.1 _ k val (fun h => hnp.1 (by rw [← h] at hk; exact hk)))
        have hfcR : ((derivedPairsObj pre rest).map Prod.fst).filter
              (fun k => containsKey (insertAll (insertPair st.1
                (if pre = [] then key else pre ++ ".".toList ++ key) val)
                (derivedPairs (if pre = [] then key else pre ++ ".".toList ++ key)
                  val)) k) =
            ((derivedPairsObj pre rest).map Prod.fst).filter
              (fun k => containsKey st.1 k) := by
          refine List.filter_congr (fun k hk => ?_)
          rw [containsKey_insertAll_not_mem _ _ k (fun h => hdisj h hk),
            containsKey_insertPair_ne st.1 _ k val (fun h => hnp.2 (by rw [← h] at hk; exact hk))]
        simp only [List.map_cons, List.map_append, List.filter_cons, List.filter_append,
          hfcI, hfcR]
        split <;> split <;> simp [List.append_assoc]
    · simp only [hcomp, if_false, Bool.false_eq_true] at hnd ⊢
      simp only [List.map_cons, List.map_append, List.map_nil, List.nil_append,
        List.cons_append, List.nodup_cons] at hnd
      obtain ⟨hnp, hndR⟩ := hnd
      rw [ihl IH' _ hndR]
      simp only [Prod.mk.injEq]
      constructor
      · rfl
      · have hfcR : ((derivedPairsObj pre rest).map Prod.fst).filter
              (fun k => containsKey (insertPair st.1
                (if pre = [] then key else pre ++ ".".toList ++ key) val) k) =
            ((derivedPairsObj pre rest).map Prod.fst).filter
              (fun k => containsKey st.1 k) :=
          List.filter_congr (fun k hk =>
            containsKey_insertPair_ne st.1 _ k val (fun h => hnp (by rw [← h] at hk; exact hk)))
        simp only [List.map_cons, List.map_append, List.map_nil, List.singleton_append,
          List.filter_cons, List.filter_append, hfcR]
        split <;> split <;> simp [List.append_assoc]

theorem flattenArrItems_spec (pre : Str) :
    ∀ items : List JValue,
      (∀ item ∈ items, ∀ (st' : List (Str × JValue) × List Str) (pre' : Str),
        FlattenSpec st' pre' item) →
      ∀ (idx : Nat) (st : List (Str × JValue) × List Str),
        ((derivedPairsArr pre idx items).map Prod.fst).Nodup →
        flattenArrItems st pre idx items =
          (insertAll st.1 (derivedPairsArr pre idx items),
           st.2 ++ ((derivedPairsArr pre idx items).map Prod.fst).filter
             (fun k => containsKey st.1 k)) := by
  intro items
  induction items with
  | nil =>
    intro _ idx st _
    simp [flattenArrItems, derivedPairsArr, insertAll]
  | cons item rest ihl =>
    intro IH idx st hnd
    have IH' : ∀ it ∈ rest, ∀ (st' : List (Str × JValue) × List Str) (pre' : Str),
        FlattenSpec st' pre' it :=
      fun it hit => IH it (List.mem_cons_of_mem _ hit)
    have hval : ∀ (st' : List (Str × JValue) × List Str) (pre' : Str),
        FlattenSpec st' pre' item := IH item (List.mem_cons_self _ _)
    simp only [flattenArrItems, derivedPairsArr, warnIfPresent_fst, warnIfPresent_snd]
      at hnd ⊢
    by_cases hcomp : item.isComposite
    · simp only [hcomp, if_true] at hnd ⊢
      simp only [List.map_cons, List.map_append, List.cons_append, List.nodup_cons] at hnd
      obtain ⟨hnp, hnd2⟩ := hnd
      obtain ⟨hndI, hndR, hdisj⟩ := List.nodup_append.mp hnd2
      rw [List.mem_append, not_or] at hnp
      rw [hval _ _ hndI, ihl IH' _ _ hndR]
      simp only [Prod.mk.injEq]
      constructor
      · exact (insertAll_append _ _ _).symm
      · have hfcI : ((derivedPairs (pre ++ "[".toList ++ natToStr idx ++ "]".toList)
              item).map Prod.fst).filter
              (fun k => containsKey (insertPair st.1
                (pre ++ "[".toList ++ natToStr idx ++ "]".toList) item) k) =
            ((derivedPairs (pre ++ "[".toList ++ natToStr idx ++ "]".toList)
              item).map Prod.fst).filter (fun k => containsKey st.1 k) :=
          List.filter_congr (fun k hk =>
            containsKey_insertPair_ne st.1 _ k item (fun h => hnp.1 (by rw [← h] at hk; exact hk)))
        have hfcR : ((derivedPairsArr pre (idx + 1) rest).map Prod.fst).filter
              (fun k => containsKey (insertAll (insertPair st.1
                (pre ++ "[".toList ++ natToStr idx ++ "]".toList) item)
                (derivedPairs (pre ++ "[".toList ++ natToStr idx ++ "]".toList)
                  item)) k) =
            ((derivedPairsArr pre (idx + 1) rest).map Prod.fst).filter
              (fun k => containsKey st.1 k) := by
          refine List.filter_congr (fun k hk => ?_)
          rw [containsKey_insertAll_not_mem _ _ k (fun h => hdisj h hk),
            containsKey_insertPair_ne st.1 _ k item (fun h => hnp.2 (by rw [← h] at hk; exact hk))]
        simp only [List.map_cons, List.map_append, List.filter_cons, List.filter_append,
          hfcI, hfcR]
        split <;> simp [List.append_assoc]
    · simp only [hcomp, if_false, Bool.false_eq_true] at hnd ⊢
      simp only [List.map_cons, List.map_append, List.map_nil, List.nil_append,
        List.cons_append, List.nodup_cons] at hnd
      obtain ⟨hnp, hndR⟩ := hnd
      rw [ihl IH' _ _ hndR]
      simp only [Prod.mk.injEq]
      constructor
      · rfl
      · have hfcR : ((derivedPairsArr pre (idx + 1) rest).map Prod.fst).filter
              (fun k => containsKey (insertPair st.1
                (pre ++ "[".toList ++ natToStr idx ++ "]".toList) item) k) =
            ((derivedPairsArr pre (idx + 1) rest).map Prod.fst).filter
              (fun k => containsKey st.1 k) :=
          List.filter_congr (fun k hk =>
            containsKey_insertPair_ne st.1 _ k item (fun h => hnp (by rw [← h] at hk; exact hk)))
        simp only [List.map_cons, List.map_append, List.map_nil, List.singleton_append,
          List.filter_cons, List.filter_append, hfcR]
        split <;> simp [List.append_assoc]

theorem flatten_spec_aux :
    ∀ (n : Nat) (v : JValue), sizeOf v ≤ n →
      ∀ (st : List (Str × JValue) × List Str) (pre : Str), FlattenSpec st pre v := by
  intro n
  induction n with
  | zero =>
    intro v hv
    exfalso
    cases v <;> simp_all
  | succ n ihn =>
    intro v hv st pre
    cases v with
    | obj fields =>
      have IH : ∀ kv ∈ fields, ∀ (st' : List (Str × JValue) × List Str) (pre' : Str),
          FlattenSpec st' pre' kv.2 := by
        intro kv hkv st' pre'
        obtain ⟨k, val⟩ := kv
        refine ihn val ?_ st' pre'
        have := sizeOf_val_lt_obj fields k val hkv
        omega
      intro hnd
      have hobj := flattenObjFields_spec pre fields IH st (by
        simpa [derivedPairs] using hnd)
      simp only [flatten_and_merge, derivedPairs]
      exact hobj
    | arr items =>
      have IH : ∀ item ∈ items, ∀ (st' : List (Str × JValue) × List Str) (pre' : Str),
          FlattenSpec st' pre' item := by
        intro item hitem st' pre'
        refine ihn item ?_ st' pre'
        have := sizeOf_item_lt_arr items item hitem
        omega
      intro hnd
      simp only [derivedPairs] at hnd
      by_cases hpre : pre = []
      · subst hpre
        simp only [flatten_and_merge, derivedPairs]
        simp only [ne_eq, not_true_eq_false, if_false, List.nil_append] at hnd ⊢
        exact flattenArrItems_spec [] items IH 0 st (by simpa using hnd)
      · simp only [flatten_and_merge, derivedPairs, ne_eq, hpre, not_false_eq_true,
          if_true, warnIfPresent_fst, warnIfPresent_snd]
        simp only [ne_eq, hpre, not_false_eq_true, if_true, List.cons_append,
          List.map_cons, List.map_append, List.nodup_cons, List.singleton_append] at hnd
        obtain ⟨hnp, hndA⟩ := hnd
        rw [flattenArrItems_spec pre items IH 0 _ hndA]
        simp only [Prod.mk.injEq]
        constructor
        · rfl
        · have hfcA : ((derivedPairsArr pre 0 items).map Prod.fst).filter
                (fun k => containsKey (insertPair st.1 pre (.arr items)) k) =
              ((derivedPairsArr pre 0 items).map Prod.fst).filter
                (fun k => containsKey st.1 k) :=
            List.filter_congr (fun k hk =>
              containsKey_insertPair_ne st.1 pre k (.arr items)
                (fun h => hnp (by rw [← h] at hk; exact hk)))
          simp only [List.map_cons, List.map_append, List.singleton_append,
            List.filter_cons, hfcA]
          split <;> simp [List.append_assoc]
    | null =>
      intro hnd
      simp only [flatten_and_merge, derivedPairs, warnIfPresent_fst, warnIfPresent_snd]
      by_cases hpre : pre = [] <;>
        simp [hpre, insertAll, List.filter_cons]
    | bool b =>
      intro hnd
      simp only [flatten_and_merge, derivedPairs, warnIfPresent_fst, warnIfPresent_snd]
      by_cases hpre : pre = [] <;>
        simp [hpre, insertAll, List.filter_cons]
    | num m =>
      intro hnd
      simp only [flatten_and_merge, derivedPairs, warnIfPresent_fst, warnIfPresent_snd]
      by_cases hpre : pre = [] <;>
        simp [hpre, insertAll, List.filter_cons]
    | str s =>
      intro hnd
      simp only [flatten_and_merge, derivedPairs, warnIfPresent_fst, warnIfPresent_snd]
      by_cases hpre : pre = [] <;>
        simp [hpre, insertAll, List.filter_cons]

theorem flatten_and_merge_spec (st : List (Str × JValue) × List Str) (pre : Str)
    (v : JValue) : FlattenSpec st pre v :=
  flatten_spec_aux (sizeOf v) v le_rfl st pre

theorem countOcc_eq_zero_of_not_mem (p : Str) (l : List Str) (h : p ∉ l) :
    countOcc p l = 0 := by
  unfold countOcc
  rw [List.length_eq_zero, List.filter_eq_nil_iff]
  intro a ha
  simp only [decide_eq_true_eq]
  intro hap
  exact h (hap ▸ ha)

theorem countOcc_nodup_filter (l : List Str) (p : Str) (c : Str → Bool)
    (hnd : l.Nodup) (hp : p ∈ l) :
    countOcc p (l.filter c) = if c p then 1 else 0 := by
  induction l with
  | nil => cases hp
  | cons a rest ih =>
    obtain ⟨ha, hnd'⟩ := List.nodup_cons.mp hnd
    rcases List.mem_cons.mp hp with heq | hmem
    · subst heq
      have hz : countOcc p (rest.filter c) = 0 :=
        countOcc_eq_zero_of_not_mem _ _ (fun hh => ha (List.mem_of_mem_filter hh))
      unfold countOcc at hz ⊢
      rw [List.filter_cons]
      by_cases hc : c p
      · rw [if_pos hc, List.filter_cons, if_pos (by simp), if_pos hc]
        rw [List.length_cons, hz]
      · rw [if_neg hc, if_neg hc]
        exact hz
    · have hpa : a ≠ p := fun hh => ha (hh ▸ hmem)
      unfold countOcc at ih ⊢
      rw [List.filter_cons]
      by_cases hc : c a
      · rw [if_pos hc, List.filter_cons, if_neg (by simp [hpa])]
        exact ih hnd' hmem
      · rw [if_neg hc]
        exact ih hnd' hmem

/-- CLAIM C3 counterexample: merging the document
`{"a": {"b": 1}, "a.b": 2, "xs": [1]}` into the empty context succeeds but
warns on `a.b` and on `xs`, although neither path existed before the merge:
`a.b` is first created by flattening `{"a": {"b": 1}}` and then collided
with by the literal key `"a.b"`, and an array under an object key is
inserted twice (once by the object loop, once by the array branch), the
second insert finding the first. -/
theorem flatten_warns_on_fresh_paths :
    (merge_custom_variables [] (some []) "json".toList
      (fun _ => some (.obj [("a".toList, .obj [("b".toList, .num 1)]),
        ("a.b".toList, .num 2), ("xs".toList, .arr [.num 1])]))
      (fun _ => none)).1 = .ok () ∧
    (merge_custom_variables [] (some []) "json".toList
      (fun _ => some (.obj [("a".toList, .obj [("b".toList, .num 1)]),
        ("a.b".toList, .num 2), ("xs".toList, .arr [.num 1])]))
      (fun _ => none)).2.2 = ["a.b".toList, "xs".toList] := by
  have hext : ("json".toList.map Char.toLower) = "json".toList := by decide
  constructor <;>
    simp [merge_custom_variables, hext, flatten_and_merge, flattenObjFields,
      flattenArrItems, warnIfPresent, containsKey, lookupPair, insertPair,
      JValue.isComposite, natToStr, natToStrAux, digitChar]

/-- CLAIM C3 (amended): for every context and override document with a
top-level mapping whose derived insertion paths are pairwise distinct (in
particular, no array values, which are always derived twice, and no dotted
key colliding with a nested path), a successful merge maps every derived
path to its override value, and emits exactly one warning for each derived
path that existed in the context before the merge and none for the
others. -/
theorem merge_custom_variables_override_spec (ctx : List (Str × JValue))
    (contents : Str) (parseJson parseYaml : Str → Option JValue)
    (fields : List (Str × JValue))
    (hparse : parseJson contents = some (.obj fields))
    (hnd : ((derivedPairs [] (.obj fields)).map Prod.fst).Nodup) :
    (merge_custom_variables ctx (some contents) "json".toList parseJson parseYaml).1 =
      .ok () ∧
    (∀ (p : Str) (v : JValue), (p, v) ∈ derivedPairs [] (.obj fields) →
      lookupPair (merge_custom_variables ctx (some contents) "json".toList
        parseJson parseYaml).2.1 p = some v) ∧
    (∀ p ∈ (derivedPairs [] (.obj fields)).map Prod.fst,
      countOcc p (merge_custom_variables ctx (some contents) "json".toList
        parseJson parseYaml).2.2 = if containsKey ctx p then 1 else 0) := by
  have hext : ("json".toList.map Char.toLower) = "json".toList := by decide
  have hflat := flatten_and_merge_spec (ctx, []) [] (.obj fields) hnd
  have hrun : merge_custom_variables ctx (some contents) "json".toList
      parseJson parseYaml =
      (.ok (), insertAll ctx (derivedPairs [] (.obj fields)),
       ((derivedPairs [] (.obj fields)).map Prod.fst).filter
         (fun k => containsKey ctx k)) := by
    simp [merge_custom_variables, hext, hparse, hflat]
  rw [hrun]
  refine ⟨rfl, ?_, ?_⟩
  · intro p v hmem
    exact lookupPair_insertAll_of_mem ctx _ p v hnd hmem
  · intro p hp
    exact countOcc_nodup_filter _ p _ hnd hp

/-- Witness for C3: the spec's scenario 2 — `{"region": "us-east-1"}` merged
into a store holding `region = "us-west-2"` yields `us-east-1` and exactly
one warning. -/
theorem merge_custom_variables_override_witness :
    (merge_custom_variables [("region".toList, .str "us-west-2".toList)] (some [])
      "json".toList
      (fun _ => some (.obj [("region".toList, .str "us-east-1".toList)]))
      (fun _ => none)).1 = .ok () ∧
    lookupPair (merge_custom_variables [("region".toList, .str "us-west-2".toList)]
      (some []) "json".toList
      (fun _ => some (.obj [("region".toList, .str "us-east-1".toList)]))
      (fun _ => none)).2.1 "region".toList = some (.str "us-east-1".toList) ∧
    countOcc "region".toList
      (merge_custom_variables [("region".toList, .str "us-west-2".toList)] (some [])
        "json".toList
        (fun _ => some (.obj [("region".toList, .str "us-east-1".toList)]))
        (fun _ => none)).2.2 = 1 := by
  have hpairs : derivedPairs [] (.obj [("region".toList, JValue.str "us-east-1".toList)]) =
      [("region".toList, JValue.str "us-east-1".toList)] := by
    simp [derivedPairs, derivedPairsObj, JValue.isComposite]
  have h := merge_custom_variables_override_spec
    [("region".toList, .str "us-west-2".toList)] []
    (fun _ => some (.obj [("region".toList, .str "us-east-1".toList)]))
    (fun _ => none)
    [("region".toList, .str "us-east-1".toList)] rfl
    (by rw [hpairs]; decide)
  refine ⟨h.1, ?_, ?_⟩
  · exact h.2.1 "region".toList (.str "us-east-1".toList)
      (by rw [hpairs]; exact List.mem_singleton.mpr rfl)
  · have hcount := h.2.2 "region".toList (by rw [hpairs]; simp)
    rw [if_pos (by decide)] at hcount
    exact hcount

/-- CLAIM C10: `merge_custom_variables` is atomic on failure — every error
path (unreadable file, unsupported extension, parse failure, non-mapping
root) returns before `flatten_and_merge` runs, so the variables map is
unchanged and no warning is emitted. -/
theorem merge_custom_variables_atomic (ctx : List (Str × JValue)) (rr : Option Str)
    (ext : Str) (parseJson parseYaml : Str → Option JValue)
    (h : (merge_custom_variables ctx rr ext parseJson parseYaml).1.isOk = false) :
    (merge_custom_variables ctx rr ext parseJson parseYaml).2.1 = ctx ∧
    (merge_custom_variables ctx rr ext parseJson parseYaml).2.2 = [] := by
  cases rr with
  | none => exact ⟨rfl, rfl⟩
  | some contents =>
    by_cases hj : ext.map Char.toLower = "json".toList
    · cases hpj : parseJson contents with
      | none => simp [merge_custom_variables, hj, hpj]
      | some v =>
        cases v with
        | obj fields =>
          simp [merge_custom_variables, hj, hpj, Except.isOk, Except.toBool] at h
        | null => simp [merge_custom_variables, hj, hpj]
        | bool b => simp [merge_custom_variables, hj, hpj]
        | num m => simp [merge_custom_variables, hj, hpj]
        | str s => simp [merge_custom_variables, hj, hpj]
        | arr items => simp [merge_custom_variables, hj, hpj]
    · by_cases hy : ext.map Char.toLower = "yaml".toList ∨
          ext.map Char.toLower = "yml".toList
      · cases hpy : parseYaml contents with
        | none =>
          rcases hy with hy1 | hy1 <;> simp [merge_custom_variables, hj, hy1, hpy]
        | some v =>
          cases v with
          | obj fields =>
            rcases hy with hy1 | hy1 <;>
              simp [merge_custom_variables, hj, hy1, hpy, Except.isOk, Except.toBool] at h
          | null =>
            rcases hy with hy1 | hy1 <;> simp [merge_custom_variables, hj, hy1, hpy]
          | bool b =>
            rcases hy with hy1 | hy1 <;> simp [merge_custom_variables, hj, hy1, hpy]
          | num m =>
            rcases hy with hy1 | hy1 <;> simp [merge_custom_variables, hj, hy1, hpy]
          | str s =>
            rcases hy with hy1 | hy1 <;> simp [merge_custom_variables, hj, hy1, hpy]
          | arr items =>
            rcases hy with hy1 | hy1 <;> simp [merge_custom_variables, hj, hy1, hpy]
      · rw [not_or] at hy
        have hres : merge_custom_variables ctx (some contents) ext parseJson parseYaml =
            (.error "Unsupported file extension".toList, ctx, []) := by
          dsimp only [merge_custom_variables]
          rw [if_neg hj, if_neg (not_or.mpr hy)]
        rw [hres]
        exact ⟨rfl, rfl⟩

/-- Witness for C10: a run failing on an unsupported extension leaves the
context untouched. -/
theorem merge_custom_variables_atomic_witness :
    (merge_custom_variables [("k".toList, .null)] (some []) "txt".toList
      (fun _ => none) (fun _ => none)).2.1 = [("k".toList, .null)] ∧
    (merge_custom_variables [("k".toList, .null)] (some []) "txt".toList
      (fun _ => none) (fun _ => none)).2.2 = [] :=
  merge_custom_variables_atomic [("k".toList, .null)] (some []) "txt".toList
    (fun _ => none) (fun _ => none) rfl

theorem lookupPair_insertAll_last {κ ν : Type} [DecidableEq κ] (m : List (κ × ν))
    (l1 l2 : List (κ × ν)) (k : κ) (v : ν) (h : k ∉ l2.map Prod.fst) :
    lookupPair (insertAll m (l1 ++ (k, v) :: l2)) k = some v := by
  rw [insertAll_append]
  show lookupPair (insertAll (insertPair (insertAll m l1) k v) l2) k = some v
  rw [lookupPair_insertAll_not_mem _ _ _ h, lookupPair_insertPair_self]

theorem append_sep_inj (c : Char) :
    ∀ (xs : Str) (ys as bs : Str), c ∉ xs → c ∉ ys →
      xs ++ c :: as = ys ++ c :: bs → xs = ys ∧ as = bs := by
  intro xs
  induction xs with
  | nil =>
    intro ys as bs _ hy h
    cases ys with
    | nil => simpa using h
    | cons y ys' =>
      exfalso
      rw [List.nil_append, List.cons_append] at h
      injection h with h1 _
      exact hy (h1 ▸ List.mem_cons_self _ _)
  | cons x xs' ih =>
    intro ys as bs hx hy h
    cases ys with
    | nil =>
      exfalso
      rw [List.nil_append, List.cons_append] at h
      injection h with h1 _
      exact hx (h1 ▸ List.mem_cons_self _ _)
    | cons y ys' =>
      rw [List.cons_append, List.cons_append] at h
      injection h with h1 h2
      subst h1
      obtain ⟨e1, e2⟩ := ih ys' as bs (fun hc => hx (List.mem_cons_of_mem _ hc))
        (fun hc => hy (List.mem_cons_of_mem _ hc)) h2
      exact ⟨by rw [e1], e2⟩

theorem digitChar_isDigit (d : Nat) (h : d < 10) : (digitChar d).isDigit = true := by
  interval_cases d <;> decide

theorem natToStrAux_digits (fuel : Nat) :
    ∀ n, n < fuel → ∀ c ∈ natToStrAux fuel n, c.isDigit = true := by
  induction fuel with
  | zero => intro n h; omega
  | succ fuel ih =>
    intro n h c hc
    rw [natToStrAux] at hc
    by_cases h10 : n < 10
    · rw [if_pos h10] at hc
      rw [List.mem_singleton] at hc
      subst hc
      exact digitChar_isDigit n h10
    · rw [if_neg h10] at hc
      rcases List.mem_append.mp hc with h1 | h2
      · exact ih (n / 10)
          (Nat.lt_of_lt_of_le (Nat.div_lt_self (by omega) (by omega)) (by omega)) c h1
      · rw [List.mem_singleton] at h2
        subst h2
        exact digitChar_isDigit (n % 10) (Nat.mod_lt _ (by omega))

theorem natToStr_digits (n : Nat) : ∀ c ∈ natToStr n, c.isDigit = true :=
  natToStrAux_digits (n + 1) n (Nat.lt_succ_self n)

theorem rbracket_not_mem_natToStr (n : Nat) : ']' ∉ natToStr n := fun h =>
  absurd (natToStr_digits n ']' h) (by decide)

theorem digitChar_toNat (d : Nat) (h : d < 10) : (digitChar d).toNat = 48 + d := by
  interval_cases d <;> decide

theorem strVal_natToStrAux (fuel : Nat) :
    ∀ n, n < fuel → strVal (natToStrAux fuel n) = n := by
  induction fuel with
  | zero => intro n h; omega
  | succ fuel ih =>
    intro n h
    rw [natToStrAux]
    by_cases h10 : n < 10
    · rw [if_pos h10]
      show 10 * 0 + ((digitChar n).toNat - 48) = n
      rw [digitChar_toNat n h10]
      omega
    · rw [if_neg h10]
      show List.foldl _ 0 (natToStrAux fuel (n / 10) ++ [digitChar (n % 10)]) = n
      rw [List.foldl_append]
      show 10 * strVal (natToStrAux fuel (n / 10)) + ((digitChar (n % 10)).toNat - 48) = n
      rw [ih (n / 10)
          (Nat.lt_of_lt_of_le (Nat.div_lt_self (by omega) (by omega)) (by omega)),
        digitChar_toNat (n % 10) (Nat.mod_lt _ (by omega))]
      omega

theorem natToStr_inj (a b : Nat) (h : natToStr a = natToStr b) : a = b := by
  have hv : strVal (natToStr a) = strVal (natToStr b) := congrArg strVal h
  rwa [show strVal (natToStr a) = a from strVal_natToStrAux _ _ (Nat.lt_succ_self a),
    show strVal (natToStr b) = b from strVal_natToStrAux _ _ (Nat.lt_succ_self b)] at hv

theorem idxKey_inj (base : Str) (i j : Nat) (a b : Str)
    (h : base ++ natToStr i ++ "]".toList ++ a = base ++ natToStr j ++ "]".toList ++ b) :
    i = j ∧ a = b := by
  simp only [List.append_assoc] at h
  have h2 := List.append_cancel_left h
  obtain ⟨e1, e2⟩ := append_sep_inj ']' (natToStr i) (natToStr j) a b
    (rbracket_not_mem_natToStr i) (rbracket_not_mem_natToStr j) h2
  exact ⟨natToStr_inj _ _ e1, e2⟩

theorem const_ne_append (p q m : Str) (n : Nat) (hq : n ≤ q.length)
    (hne : p.take n ≠ q.take n) : p ≠ q ++ m := by
  intro h
  apply hne
  have hth := congrArg (List.take n) h
  rwa [List.take_append_of_le_length hq] at hth

theorem ne_append_of_length_lt (p q m : Str) (h : p.length < q.length) : p ≠ q ++ m := by
  intro he
  have := congrArg List.length he
  rw [List.length_append] at this
  omega

theorem keys_blueprintResourcePairs (i : Nat) (r : BlueprintResource) :
    (blueprintResourcePairs i r).map Prod.fst =
      (blueprintSuffixes r).map (fun s => resPre i ++ s) := by
  rcases hr : r.description with _ | d <;>
    simp [blueprintResourcePairs, blueprintSuffixes, hr, List.map_append, List.map_map,
      List.append_assoc, Function.comp]

theorem keys_stackResourcePairs (i : Nat) (r : StackResource) :
    (stackResourcePairs i r).map Prod.fst =
      (stackSuffixes r).map (fun s => stackResPre i ++ s) := by
  rcases hr : r.description with _ | d <;>
    simp [stackResourcePairs, stackSuffixes, hr, List.map_append, List.map_map,
      List.append_assoc, Function.comp]

theorem blueprintSuffixes_shape (r : BlueprintResource) (s : Str)
    (h : s ∈ blueprintSuffixes r) : ∃ t, s = '.' :: t := by
  rcases hr : r.description with _ | d <;> simp only [blueprintSuffixes, hr] at h <;>
    rcases List.mem_append.mp h with h1 | h2 <;>
    first
      | fin_cases h1 <;> exact ⟨_, rfl⟩
      | obtain ⟨kv, _, heq⟩ := List.mem_map.mp h2
        exact ⟨_, heq.symm⟩

theorem stackSuffixes_shape (r : StackResource) (s : Str)
    (h : s ∈ stackSuffixes r) : ∃ t, s = '.' :: t := by
  rcases hr : r.description with _ | d <;> simp only [stackSuffixes, hr] at h <;>
    rcases List.mem_append.mp h with h1 | h2 <;>
    first
      | fin_cases h1 <;> exact ⟨_, rfl⟩
      | obtain ⟨kv, _, heq⟩ := List.mem_map.mp h2
        exact ⟨_, heq.symm⟩

theorem blueprintKey_shape (i : Nat) (r : BlueprintResource) (k : Str)
    (h : k ∈ (blueprintResourcePairs i r).map Prod.fst) :
    ∃ t, k = "resources[".toList ++ natToStr i ++ "]".toList ++ '.' :: t := by
  rw [keys_blueprintResourcePairs] at h
  obtain ⟨s, hs, hk⟩ := List.mem_map.mp h
  obtain ⟨t, ht⟩ := blueprintSuffixes_shape r s hs
  exact ⟨t, by rw [← hk, ht]; rfl⟩

theorem stackKey_shape (i : Nat) (r : StackResource) (k : Str)
    (h : k ∈ (stackResourcePairs i r).map Prod.fst) :
    ∃ t, k = "stack_resources[".toList ++ natToStr i ++ "]".toList ++ '.' :: t := by
  rw [keys_stackResourcePairs] at h
  obtain ⟨s, hs, hk⟩ := List.mem_map.mp h
  obtain ⟨t, ht⟩ := stackSuffixes_shape r s hs
  exact ⟨t, by rw [← hk, ht]; rfl⟩

theorem nodup_blueprintSuffixes (r : BlueprintResource)
    (hcsp : (r.cloud_specific_properties.map Prod.fst).Nodup) :
    (blueprintSuffixes r).Nodup := by
  have hmap : (r.cloud_specific_properties.map
      (fun kv => ".cloud_specific_properties.".toList ++ kv.1)).Nodup := by
    rw [show (fun kv : Str × JValue => ".cloud_specific_properties.".toList ++ kv.1)
        = (fun s => ".cloud_specific_properties.".toList ++ s) ∘ Prod.fst from rfl,
      ← List.map_map]
    exact hcsp.map (fun a b hab => List.append_cancel_left hab)
  rcases hr : r.description with _ | d
  · have he : blueprintSuffixes r =
        [".id".toList, ".name".toList, ".resource_type.id".toList,
         ".resource_type.name".toList, ".resource_type.category".toList,
         ".cloud_provider.id".toList, ".cloud_provider.name".toList,
         ".cloud_provider.display_name".toList, ".configuration".toList] ++
        r.cloud_specific_properties.map
          (fun kv => ".cloud_specific_properties.".toList ++ kv.1) := by
      simp only [blueprintSuffixes, hr]
      rfl
    rw [he, List.nodup_append]
    refine ⟨by decide, hmap, ?_⟩
    intro s hs hmem
    obtain ⟨kv, _, heq⟩ := List.mem_map.mp hmem
    fin_cases hs <;>
      first
        | exact ne_append_of_length_lt _ _ _ (by decide) heq.symm
        | exact const_ne_append _ _ _ 8 (by decide) (by decide) heq.symm
  · have he : blueprintSuffixes r =
        [".id".toList, ".name".toList, ".description".toList, ".resource_type.id".toList,
         ".resource_type.name".toList, ".resource_type.category".toList,
         ".cloud_provider.id".toList, ".cloud_provider.name".toList,
         ".cloud_provider.display_name".toList, ".configuration".toList] ++
        r.cloud_specific_properties.map
          (fun kv => ".cloud_specific_properties.".toList ++ kv.1) := by
      simp only [blueprintSuffixes, hr]
      rfl
    rw [he, List.nodup_append]
    refine ⟨by decide, hmap, ?_⟩
    intro s hs hmem
    obtain ⟨kv, _, heq⟩ := List.mem_map.mp hmem
    fin_cases hs <;>
      first
        | exact ne_append_of_length_lt _ _ _ (by decide) heq.symm
        | exact const_ne_append _ _ _ 8 (by decide) (by decide) heq.symm

theorem nodup_stackSuffixes (r : StackResource)
    (hcfg : (r.configuration.map Prod.fst).Nodup) :
    (stackSuffixes r).Nodup := by
  have hmap : (r.configuration.map
      (fun kv => ".configuration.".toList ++ kv.1)).Nodup := by
    rw [show (fun kv : Str × JValue => ".configuration.".toList ++ kv.1)
        = (fun s => ".configuration.".toList ++ s) ∘ Prod.fst from rfl,
      ← List.map_map]
    exact hcfg.map (fun a b hab => List.append_cancel_left hab)
  rcases hr : r.description with _ | d
  · have he : stackSuffixes r =
        [".id".toList, ".name".toList, ".resource_type.id".toList,
         ".resource_type.name".toList, ".resource_type.category".toList,
         ".cloud_provider.id".toList, ".cloud_provider.name".toList,
         ".cloud_provider.display_name".toList] ++
        r.configuration.map (fun kv => ".configuration.".toList ++ kv.1) := by
      simp only [stackSuffixes, hr]
      rfl
    rw [he, List.nodup_append]
    refine ⟨by decide, hmap, ?_⟩
    intro s hs hmem
    obtain ⟨kv, _, heq⟩ := List.mem_map.mp hmem
    fin_cases hs <;>
      first
        | exact ne_append_of_length_lt _ _ _ (by decide) heq.symm
        | exact const_ne_append _ _ _ 3 (by decide) (by decide) heq.symm
  · have he : stackSuffixes r =
        [".id".toList, ".name".toList, ".description".toList, ".resource_type.id".toList,
         ".resource_type.name".toList, ".resource_type.category".toList,
         ".cloud_provider.id".toList, ".cloud_provider.name".toList,
         ".cloud_provider.display_name".toList] ++
        r.configuration.map (fun kv => ".configuration.".toList ++ kv.1) := by
      simp only [stackSuffixes, hr]
      rfl
    rw [he, List.nodup_append]
    refine ⟨by decide, hmap, ?_⟩
    intro s hs hmem
    obtain ⟨kv, _, heq⟩ := List.mem_map.mp hmem
    fin_cases hs <;>
      first
        | exact ne_append_of_length_lt _ _ _ (by decide) heq.symm
        | exact const_ne_append _ _ _ 3 (by decide) (by decide) heq.symm

theorem nodup_keys_blueprintResourcePairs (i : Nat) (r : BlueprintResource)
    (hcsp : (r.cloud_specific_properties.map Prod.fst).Nodup) :
    ((blueprintResourcePairs i r).map Prod.fst).Nodup := by
  rw [keys_blueprintResourcePairs]
  exact (nodup_blueprintSuffixes r hcsp).map (fun a b hab => List.append_cancel_left hab)

theorem nodup_keys_stackResourcePairs (i : Nat) (r : StackResource)
    (hcfg : (r.configuration.map Prod.fst).Nodup) :
    ((stackResourcePairs i r).map Prod.fst).Nodup := by
  rw [keys_stackResourcePairs]
  exact (nodup_stackSuffixes r hcfg).map (fun a b hab => List.append_cancel_left hab)

theorem not_mem_keys_blueprintResourcePairs (i j : Nat) (hne : i ≠ j)
    (r : BlueprintResource) (t : Str) :
    (resPre i ++ '.' :: t) ∉ (blueprintResourcePairs j r).map Prod.fst := by
  intro h
  obtain ⟨t', ht'⟩ := blueprintKey_shape j r _ h
  exact hne (idxKey_inj "resources[".toList i j ('.' :: t) ('.' :: t') ht').1

theorem not_mem_keys_stackResourcePairs (i j : Nat) (hne : i ≠ j)
    (r : StackResource) (t : Str) :
    (stackResPre i ++ '.' :: t) ∉ (stackResourcePairs j r).map Prod.fst := by
  intro h
  obtain ⟨t', ht'⟩ := stackKey_shape j r _ h
  exact hne (idxKey_inj "stack_resources[".toList i j ('.' :: t) ('.' :: t') ht').1

theorem enum_decomp {α : Type} (l : List α) (i : Nat) (x : α) (h : l.get? i = some x) :
    l.enum = (l.take i).enum ++ (i, x) :: List.enumFrom (i + 1) (l.drop (i + 1)) := by
  obtain ⟨hi, hget⟩ := List.get?_eq_some.mp h
  have hdrop : l.drop i = x :: l.drop (i + 1) := by
    rw [List.drop_eq_getElem_cons hi]
    exact congrArg (· :: l.drop (i + 1)) hget
  have hsplit : l = l.take i ++ x :: l.drop (i + 1) := by
    rw [← hdrop, List.take_append_drop]
  have hlen : (l.take i).length = i := by
    rw [List.length_take]
    omega
  show List.enumFrom 0 l = _
  conv_lhs => rw [hsplit]
  rw [List.enumFrom_append, List.enumFrom_cons, hlen, Nat.zero_add]
  rfl

theorem flatMap_enum_decomp {α β : Type} (f : Nat × α → List β) (l : List α)
    (i : Nat) (x : α) (h : l.get? i = some x) :
    l.enum.flatMap f = (l.take i).enum.flatMap f ++
      (f (i, x) ++ (List.enumFrom (i + 1) (l.drop (i + 1))).flatMap f) := by
  rw [enum_decomp l i x h, List.flatMap_append, List.flatMap_cons]

theorem not_mem_keys_flatMap_blueprint (i : Nat) (t : Str)
    (ps : List (Nat × BlueprintResource)) (hbound : ∀ p ∈ ps, p.1 ≠ i) :
    (resPre i ++ '.' :: t) ∉
      (ps.flatMap (fun ir => blueprintResourcePairs ir.1 ir.2)).map Prod.fst := by
  intro h
  obtain ⟨kv, hkv, hk⟩ := List.mem_map.mp h
  obtain ⟨ir, hir, hkvmem⟩ := List.mem_flatMap.mp hkv
  have hmem : (resPre i ++ '.' :: t) ∈ (blueprintResourcePairs ir.1 ir.2).map Prod.fst :=
    hk ▸ List.mem_map_of_mem Prod.fst hkvmem
  exact not_mem_keys_blueprintResourcePairs i ir.1 (Ne.symm (hbound ir hir)) ir.2 t hmem

theorem not_mem_keys_flatMap_stack (i : Nat) (t : Str)
    (ps : List (Nat × StackResource)) (hbound : ∀ p ∈ ps, p.1 ≠ i) :
    (stackResPre i ++ '.' :: t) ∉
      (ps.flatMap (fun ir => stackResourcePairs ir.1 ir.2)).map Prod.fst := by
  intro h
  obtain ⟨kv, hkv, hk⟩ := List.mem_map.mp h
  obtain ⟨ir, hir, hkvmem⟩ := List.mem_flatMap.mp hkv
  have hmem : (stackResPre i ++ '.' :: t) ∈ (stackResourcePairs ir.1 ir.2).map Prod.fst :=
    hk ▸ List.mem_map_of_mem Prod.fst hkvmem
  exact not_mem_keys_stackResourcePairs i ir.1 (Ne.symm (hbound ir hir)) ir.2 t hmem

theorem resKey_ne_const (i : Nat) (t : Str) (c : Str) (hc : c.take 1 ≠ ['r']) :
    resPre i ++ '.' :: t ≠ c := by
  intro h
  apply hc
  rw [← h]
  show (("resources[".toList ++ natToStr i ++ "]".toList) ++ '.' :: t).take 1 = ['r']
  rw [List.append_assoc, List.append_assoc, List.take_append_of_le_length (by decide)]
  rfl

theorem stackKey_ne_const (i : Nat) (t : Str) (c : Str) (hc : c.take 1 ≠ ['s']) :
    stackResPre i ++ '.' :: t ≠ c := by
  intro h
  apply hc
  rw [← h]
  show (("stack_resources[".toList ++ natToStr i ++ "]".toList) ++ '.' :: t).take 1 = ['s']
  rw [List.append_assoc, List.append_assoc, List.take_append_of_le_length (by decide)]
  rfl

theorem not_mem_keys_blueprintTail (i : Nat) (t : Str) (b : Blueprint) :
    (resPre i ++ '.' :: t) ∉ (blueprintTail b).map Prod.fst := by
  intro hmem
  have hk : (blueprintTail b).map Prod.fst = ["supported_cloud_providers".toList] := rfl
  rw [hk, List.mem_singleton] at hmem
  exact resKey_ne_const i t _ (by decide) hmem

theorem not_mem_keys_stackTail (i : Nat) (t : Str) (s : Stack) :
    (stackResPre i ++ '.' :: t) ∉ (stackTail s).map Prod.fst := by
  intro hmem
  rcases hb : s.blueprint with _ | bp
  · simp only [stackTail, hb, List.map_nil] at hmem
    exact absurd hmem (List.not_mem_nil _)
  · rcases hd : bp.description with _ | d
    · have hk : (stackTail s).map Prod.fst =
          ["blueprint.id".toList, "blueprint.name".toList] := by
        simp only [stackTail, hb, hd]
        rfl
      rw [hk, List.mem_cons, List.mem_singleton] at hmem
      rcases hmem with h | h <;> exact stackKey_ne_const i t _ (by decide) h
    · have hk : (stackTail s).map Prod.fst =
          ["blueprint.id".toList, "blueprint.name".toList,
           "blueprint.description".toList] := by
        simp only [stackTail, hb, hd]
        rfl
      rw [hk, List.mem_cons, List.mem_cons, List.mem_singleton] at hmem
      rcases hmem with h | h | h <;> exact stackKey_ne_const i t _ (by decide) h

theorem lookup_from_blueprint (b : Blueprint) (i : Nat) (r : BlueprintResource)
    (hres : b.resources.get? i = some r)
    (hcsp : (r.cloud_specific_properties.map Prod.fst).Nodup) :
    ∀ kv ∈ blueprintResourcePairs i r,
      lookupPair (from_blueprint b).vars kv.1 = some kv.2 := by
  intro kv hkv
  obtain ⟨q1, q2, hq⟩ := List.append_of_mem hkv
  obtain ⟨t, ht⟩ : ∃ t, kv.1 = resPre i ++ '.' :: t :=
    blueprintKey_shape i r kv.1 (List.mem_map_of_mem Prod.fst hkv)
  have hnotq2 : kv.1 ∉ q2.map Prod.fst := by
    have hnd := nodup_keys_blueprintResourcePairs i r hcsp
    rw [hq, List.map_append, List.map_cons] at hnd
    exact (List.nodup_cons.mp (List.nodup_append.mp hnd).2.1).1
  have hnotP2 : kv.1 ∉ ((List.enumFrom (i + 1) (b.resources.drop (i + 1))).flatMap
      (fun ir => blueprintResourcePairs ir.1 ir.2)).map Prod.fst := by
    rw [ht]
    exact not_mem_keys_flatMap_blueprint i t _ (fun p hp => by
      have := List.le_fst_of_mem_enumFrom hp
      omega)
  have hnotT : kv.1 ∉ (blueprintTail b).map Prod.fst := by
    rw [ht]
    exact not_mem_keys_blueprintTail i t b
  have hdecomp : fromBlueprintPairs b =
      (blueprintHead b ++ ((b.resources.take i).enum.flatMap
        (fun ir => blueprintResourcePairs ir.1 ir.2) ++ q1)) ++
      kv :: (q2 ++ ((List.enumFrom (i + 1) (b.resources.drop (i + 1))).flatMap
        (fun ir => blueprintResourcePairs ir.1 ir.2) ++ blueprintTail b)) := by
    rw [fromBlueprintPairs,
      flatMap_enum_decomp (fun ir => blueprintResourcePairs ir.1 ir.2) b.resources i r hres,
      hq]
    simp only [List.append_assoc, List.cons_append]
  have hnot : kv.1 ∉ (q2 ++ ((List.enumFrom (i + 1) (b.resources.drop (i + 1))).flatMap
      (fun ir => blueprintResourcePairs ir.1 ir.2) ++ blueprintTail b)).map Prod.fst := by
    rw [List.map_append, List.map_append]
    intro hm
    rcases List.mem_append.mp hm with h1 | h2
    · exact hnotq2 h1
    · rcases List.mem_append.mp h2 with h3 | h4
      · exact hnotP2 h3
      · exact hnotT h4
  show lookupPair (insertAll [] (fromBlueprintPairs b)) kv.1 = some kv.2
  rw [hdecomp]
  exact lookupPair_insertAll_last [] _ _ kv.1 kv.2 hnot

theorem lookup_from_stack (s : Stack) (i : Nat) (r : StackResource)
    (hres : s.stack_resources.get? i = some r)
    (hcfg : (r.configuration.map Prod.fst).Nodup) :
    ∀ kv ∈ stackResourcePairs i r,
      lookupPair (from_stack s).vars kv.1 = some kv.2 := by
  intro kv hkv
  obtain ⟨q1, q2, hq⟩ := List.append_of_mem hkv
  obtain ⟨t, ht⟩ : ∃ t, kv.1 = stackResPre i ++ '.' :: t :=
    stackKey_shape i r kv.1 (List.mem_map_of_mem Prod.fst hkv)
  have hnotq2 : kv.1 ∉ q2.map Prod.fst := by
    have hnd := nodup_keys_stackResourcePairs i r hcfg
    rw [hq, List.map_append, List.map_cons] at hnd
    exact (List.nodup_cons.mp (List.nodup_append.mp hnd).2.1).1
  have hnotP2 : kv.1 ∉ ((List.enumFrom (i + 1) (s.stack_resources.drop (i + 1))).flatMap
      (fun ir => stackResourcePairs ir.1 ir.2)).map Prod.fst := by
    rw [ht]
    exact not_mem_keys_flatMap_stack i t _ (fun p hp => by
      have := List.le_fst_of_mem_enumFrom hp
      omega)
  have hnotT : kv.1 ∉ (stackTail s).map Prod.fst := by
    rw [ht]
    exact not_mem_keys_stackTail i t s
  have hdecomp : fromStackPairs s =
      (stackHead s ++ ((s.stack_resources.take i).enum.flatMap
        (fun ir => stackResourcePairs ir.1 ir.2) ++ q1)) ++
      kv :: (q2 ++ ((List.enumFrom (i + 1) (s.stack_resources.drop (i + 1))).flatMap
        (fun ir => stackResourcePairs ir.1 ir.2) ++ stackTail s)) := by
    rw [fromStackPairs,
      flatMap_enum_decomp (fun ir => stackResourcePairs ir.1 ir.2) s.stack_resources i r hres,
      hq]
    simp only [List.append_assoc, List.cons_append]
  have hnot : kv.1 ∉ (q2 ++ ((List.enumFrom (i + 1) (s.stack_resources.drop (i + 1))).flatMap
      (fun ir => stackResourcePairs ir.1 ir.2) ++ stackTail s)).map Prod.fst := by
    rw [List.map_append, List.map_append]
    intro hm
    rcases List.mem_append.mp hm with h1 | h2
    · exact hnotq2 h1
    · rcases List.mem_append.mp h2 with h3 | h4
      · exact hnotP2 h3
      · exact hnotT h4
  show lookupPair (insertAll [] (fromStackPairs s)) kv.1 = some kv.2
  rw [hdecomp]
  exact lookupPair_insertAll_last [] _ _ kv.1 kv.2 hnot

/-- C4 counterexample: `from_blueprint` inserts the whole configuration map but no
individual `resources[i].configuration.key` entry (here `resources[0].configuration.a`
is absent although the configuration has key `a`), and `from_stack` inserts the
individual `stack_resources[i].configuration.key` entries but no whole-map
`stack_resources[i].configuration` entry. -/
theorem builders_miss_claimed_configuration_entries :
    lookupPair (from_blueprint ⟨"b1".toList, "bp".toList, none,
        [⟨"r1".toList, "res".toList, none, ⟨"t1".toList, "ty".toList, "cat".toList⟩,
          ⟨"p1".toList, "prov".toList, "Prov".toList⟩,
          .obj [("a".toList, .num 1)], []⟩], []⟩).vars
      "resources[0].configuration.a".toList = none ∧
    lookupPair (from_stack ⟨"s1".toList, "st".toList, none, "aws".toList, "dev".toList,
        [⟨"r1".toList, "res".toList, none, ⟨"t1".toList, "ty".toList, "cat".toList⟩,
          ⟨"p1".toList, "prov".toList, "Prov".toList⟩,
          [("cpu".toList, .num 2)]⟩], none⟩).vars
      "stack_resources[0].configuration".toList = none :=
  ⟨rfl, rfl⟩

/-- C4 (amended): for every blueprint, every pair actually inserted for resource
`i` — the scalars, the flattened resource-type and cloud-provider sub-record
fields, the whole configuration map at `resources[i].configuration`, and one
entry per cloud-specific property — is retrievable from the built store, and
for every stack the analogous pairs — scalars, flattened sub-records, and one
`stack_resources[i].configuration.key` entry per configuration key, with no
whole-configuration entry — are retrievable; the property-map keys are assumed
pairwise distinct, as `HashMap` iteration guarantees. -/
theorem from_blueprint_from_stack_resource_entries :
    (∀ (b : Blueprint) (i : Nat) (r : BlueprintResource),
        b.resources.get? i = some r →
        (r.cloud_specific_properties.map Prod.fst).Nodup →
        ∀ kv ∈ blueprintResourcePairs i r,
          lookupPair (from_blueprint b).vars kv.1 = some kv.2) ∧
    (∀ (s : Stack) (i : Nat) (r : StackResource),
        s.stack_resources.get? i = some r →
        (r.configuration.map Prod.fst).Nodup →
        ∀ kv ∈ stackResourcePairs i r,
          lookupPair (from_stack s).vars kv.1 = some kv.2) :=
  ⟨fun b i r hres hcsp => lookup_from_blueprint b i r hres hcsp,
   fun s i r hres hcfg => lookup_from_stack s i r hres hcfg⟩

/-- Witness for C4 at a concrete blueprint and stack: the whole-configuration
entry of the blueprint resource and the per-key configuration entry of the
stack resource are both found. -/
theorem from_blueprint_from_stack_resource_entries_witness :
    lookupPair (from_blueprint ⟨"b1".toList, "bp".toList, none,
        [⟨"r1".toList, "res".toList, none, ⟨"t1".toList, "ty".toList, "cat".toList⟩,
          ⟨"p1".toList, "prov".toList, "Prov".toList⟩,
          .obj [("a".toList, .num 1)], []⟩], []⟩).vars
      "resources[0].configuration".toList = some (.obj [("a".toList, .num 1)]) ∧
    lookupPair (from_stack ⟨"s1".toList, "st".toList, none, "aws".toList, "dev".toList,
        [⟨"r1".toList, "res".toList, none, ⟨"t1".toList, "ty".toList, "cat".toList⟩,
          ⟨"p1".toList, "prov".toList, "Prov".toList⟩,
          [("cpu".toList, .num 2)]⟩], none⟩).vars
      "stack_resources[0].configuration.cpu".toList = some (.num 2) :=
  ⟨from_blueprint_from_stack_resource_entries.1
      ⟨"b1".toList, "bp".toList, none,
        [⟨"r1".toList, "res".toList, none, ⟨"t1".toList, "ty".toList, "cat".toList⟩,
          ⟨"p1".toList, "prov".toList, "Prov".toList⟩,
          .obj [("a".toList, .num 1)], []⟩], []⟩ 0
      ⟨"r1".toList, "res".toList, none, ⟨"t1".toList, "ty".toList, "cat".toList⟩,
        ⟨"p1".toList, "prov".toList, "Prov".toList⟩,
        .obj [("a".toList, .num 1)], []⟩ rfl (by decide)
      (resPre 0 ++ ".configuration".toList, .obj [("a".toList, .num 1)])
      (.tail _ (.tail _ (.tail _ (.tail _ (.tail _ (.tail _ (.tail _ (.tail _
        (.head _))))))))),
   from_blueprint_from_stack_resource_entries.2
      ⟨"s1".toList, "st".toList, none, "aws".toList, "dev".toList,
        [⟨"r1".toList, "res".toList, none, ⟨"t1".toList, "ty".toList, "cat".toList⟩,
          ⟨"p1".toList, "prov".toList, "Prov".toList⟩,
          [("cpu".toList, .num 2)]⟩], none⟩ 0
      ⟨"r1".toList, "res".toList, none, ⟨"t1".toList, "ty".toList, "cat".toList⟩,
        ⟨"p1".toList, "prov".toList, "Prov".toList⟩,
        [("cpu".toList, .num 2)]⟩ rfl (by decide)
      (stackResPre 0 ++ ".configuration.".toList ++ "cpu".toList, .num 2)
      (.tail _ (.tail _ (.tail _ (.tail _ (.tail _ (.tail _ (.tail _ (.tail _
        (.head _)))))))))⟩

theorem lexLe_total (a : Str) : ∀ b, lexLe a b = true ∨ lexLe b a = true := by
  induction a with
  | nil => intro b; left; rfl
  | cons x xs ih =>
    intro b
    cases b with
    | nil => right; rfl
    | cons y ys =>
      by_cases hxy : x = y
      · subst hxy
        rcases ih ys with h | h
        · left
          simp [lexLe, h]
        · right
          simp [lexLe, h]
      · rcases lt_or_gt_of_ne hxy with h | h
        · left
          simp [lexLe, hxy, h]
        · right
          simp [lexLe, Ne.symm hxy, h]

theorem lexLe_trans (a : Str) : ∀ b c, lexLe a b = true → lexLe b c = true →
    lexLe a c = true := by
  induction a with
  | nil => intro b c _ _; rfl
  | cons x xs ih =>
    intro b c hab hbc
    cases b with
    | nil => exact absurd hab (by simp [lexLe])
    | cons y ys =>
      cases c with
      | nil => exact absurd hbc (by simp [lexLe])
      | cons z zs =>
        by_cases hxy : x = y <;> by_cases hyz : y = z
        · subst hxy
          subst hyz
          simp only [lexLe, if_pos rfl] at hab hbc ⊢
          exact ih ys zs hab hbc
        · subst hxy
          simp only [lexLe, if_pos rfl] at hab
          simp only [lexLe, if_neg hyz] at hbc ⊢
          exact hbc
        · subst hyz
          simp only [lexLe, if_neg hxy] at hab ⊢
          exact hab
        · simp only [lexLe, if_neg hxy] at hab
          simp only [lexLe, if_neg hyz] at hbc
          have hlt := lt_trans (of_decide_eq_true hab) (of_decide_eq_true hbc)
          simp only [lexLe, if_neg (ne_of_lt hlt)]
          exact decide_eq_true hlt

theorem insertOrd_perm {α : Type} (le : α → α → Bool) (x : α) :
    ∀ l : List α, (insertOrd le x l).Perm (x :: l) := by
  intro l
  induction l with
  | nil => exact List.Perm.refl _
  | cons y ys ih =>
    rw [insertOrd]
    split
    · exact List.Perm.refl _
    · exact ((ih.cons y).trans (List.Perm.swap x y ys))

theorem sortStable_perm {α : Type} (le : α → α → Bool) :
    ∀ l : List α, (sortStable le l).Perm l := by
  intro l
  induction l with
  | nil => exact List.Perm.refl _
  | cons x xs ih => exact (insertOrd_perm le x (sortStable le xs)).trans (ih.cons x)

theorem insertOrd_sorted (x : Str) :
    ∀ l : List Str, List.Sorted (fun a b => lexLe a b = true) l →
      List.Sorted (fun a b => lexLe a b = true) (insertOrd lexLe x l) := by
  intro l
  induction l with
  | nil => intro _; simp [insertOrd]
  | cons y ys ih =>
    intro hs
    rw [List.sorted_cons] at hs
    rw [insertOrd]
    split
    · next hxy =>
      rw [List.sorted_cons]
      constructor
      · intro b hb
        rcases List.mem_cons.mp hb with hby | hbys
        · subst hby
          exact hxy
        · exact lexLe_trans x y b hxy (hs.1 b hbys)
      · exact List.sorted_cons.mpr hs
    · next hneg =>
      have hyx : lexLe y x = true := (lexLe_total x y).resolve_left hneg
      rw [List.sorted_cons]
      refine ⟨?_, ih hs.2⟩
      intro b hb
      rcases List.mem_cons.mp ((insertOrd_perm lexLe x ys).mem_iff.mp hb) with h | h
      · exact h ▸ hyx
      · exact hs.1 b h

theorem sortStable_sorted :
    ∀ l : List Str, List.Sorted (fun a b => lexLe a b = true) (sortStable lexLe l) := by
  intro l
  induction l with
  | nil => simp [sortStable]
  | cons x xs ih => exact insertOrd_sorted x _ ih

theorem collectSimilar_all (name : Str) :
    ∀ (vars : List (Str × JValue)) (n : Nat),
      (∀ kv ∈ vars, noPanic (is_similar name kv.1) = true) →
      (vars.filter (fun kv => isSimOk (is_similar name kv.1))).length ≤ n →
      collectSimilar name vars n =
        .ok ((vars.filter (fun kv => isSimOk (is_similar name kv.1))).map Prod.fst) := by
  intro vars
  induction vars with
  | nil =>
    intro n _ _
    cases n <;> rfl
  | cons kv rest ih =>
    intro n hnp hlen
    have hnpk := hnp kv (List.mem_cons_self _ _)
    rcases hsim : is_similar name kv.1 with _ | b
    · rw [hsim] at hnpk
      exact absurd hnpk (by simp [noPanic])
    · cases b with
      | false =>
        have hfilter : (kv :: rest).filter (fun p => isSimOk (is_similar name p.1)) =
            rest.filter (fun p => isSimOk (is_similar name p.1)) :=
          List.filter_cons_of_neg (by simp [hsim, isSimOk])
        rw [hfilter] at hlen ⊢
        cases n with
        | zero =>
          have hnil : rest.filter (fun p => isSimOk (is_similar name p.1)) = [] :=
            List.length_eq_zero.mp (Nat.le_zero.mp hlen)
          rw [hnil]
          rfl
        | succ n =>
          rw [show collectSimilar name (kv :: rest) (n + 1) =
              collectSimilar name rest (n + 1) by rw [collectSimilar, hsim]]
          exact ih (n + 1) (fun p hp => hnp p (List.mem_cons_of_mem _ hp)) hlen
      | true =>
        have hfilter : (kv :: rest).filter (fun p => isSimOk (is_similar name p.1)) =
            kv :: rest.filter (fun p => isSimOk (is_similar name p.1)) :=
          List.filter_cons_of_pos (by simp [hsim, isSimOk])
        rw [hfilter] at hlen ⊢
        cases n with
        | zero =>
          rw [List.length_cons] at hlen
          omega
        | succ n =>
          rw [show collectSimilar name (kv :: rest) (n + 1) =
              (collectSimilar name rest n).map (fun l => kv.1 :: l) by
            rw [collectSimilar, hsim]]
          rw [ih n (fun p hp => hnp p (List.mem_cons_of_mem _ hp))
            (Nat.le_of_succ_le_succ (by simpa using hlen))]
          rfl

theorem is_similar_close (search candidate : Str) (b : Bool)
    (hb : is_similar search candidate = .ok b)
    (hd : levenshtein_distance (search.map Char.toLower) (candidate.map Char.toLower) ≤ 2) :
    b = true := by
  simp only [is_similar] at hb
  split at hb
  · injection hb with h
    exact h.symm
  split at hb
  · injection hb with h
    exact h.symm
  split at hb
  · split at hb
    · split at hb
      · injection hb with h
        exact h.symm
      · injection hb with h
        rw [← h]
        exact decide_eq_true hd
    all_goals exact PanicOr.noConfusion hb
  · injection hb with h
    rw [← h]
    exact decide_eq_true hd

theorem isSimOk_close (search candidate : Str)
    (hnp : noPanic (is_similar search candidate) = true)
    (hd : levenshtein_distance (search.map Char.toLower) (candidate.map Char.toLower) ≤ 2) :
    isSimOk (is_similar search candidate) = true := by
  rcases hs : is_similar search candidate with _ | b
  · rw [hs] at hnp
    exact absurd hnp (by simp [noPanic])
  · rw [is_similar_close search candidate b hs hd]
    rfl

/-- C8 counterexample: the context stores `z`, at Levenshtein distance 1 from
the query `zz`, but the suggestion text lists only `a`–`e`: the code truncates
with `take(5)` over the alphabetically enumerated names BEFORE sorting, and
`a`–`e` (each at distance 2, hence similar) exhaust the budget first. -/
theorem suggest_omits_distance_one_path :
    levenshtein_distance "zz".toList "z".toList = 1 ∧
    "z".toList ∈ (list_all ⟨[("e".toList, .null), ("d".toList, .null), ("z".toList, .null),
      ("a".toList, .null), ("c".toList, .null), ("b".toList, .null)]⟩).map Prod.fst ∧
    suggest_similar_variables
      ⟨[("e".toList, .null), ("d".toList, .null), ("z".toList, .null),
        ("a".toList, .null), ("c".toList, .null), ("b".toList, .null)]⟩ "zz".toList =
      .ok ("Did you mean one of these?\n  - a\n  - b\n  - c\n  - d\n  - e".toList) :=
  ⟨rfl, by decide, rfl⟩

/-- C8 (amended): when every similarity check evaluates without panicking, at
least one stored name is similar, and AT MOST FIVE are, the suggestion text
lists exactly the similar names, sorted lexicographically; in particular it
then includes every stored path within lowercase Levenshtein distance 2 of
the query (so every path one edit away). With more than five similar names
the `take(5)`-before-`sort` truncation can drop a distance-1 path. -/
theorem suggest_similar_variables_spec :
    ∀ (ctx : VariableContext) (name : Str),
      list_all ctx ≠ [] →
      (∀ kv ∈ list_all ctx, noPanic (is_similar name kv.1) = true) →
      ((list_all ctx).filter (fun kv => isSimOk (is_similar name kv.1))) ≠ [] →
      ((list_all ctx).filter (fun kv => isSimOk (is_similar name kv.1))).length ≤ 5 →
      ∃ listed : List Str,
        suggest_similar_variables ctx name =
          .ok ("Did you mean one of these?\n".toList ++
            joinNL (listed.map (fun n => "  - ".toList ++ n))) ∧
        List.Sorted (fun a b => lexLe a b = true) listed ∧
        listed.Perm (((list_all ctx).filter
          (fun kv => isSimOk (is_similar name kv.1))).map Prod.fst) ∧
        ∀ p ∈ (list_all ctx).map Prod.fst,
          levenshtein_distance (name.map Char.toLower) (p.map Char.toLower) ≤ 2 →
          p ∈ listed := by
  intro ctx name hne hnp hfne hlen
  have hcoll := collectSimilar_all name (list_all ctx) 5 hnp hlen
  obtain ⟨q, qs, hq⟩ : ∃ q qs, ((list_all ctx).filter
      (fun kv => isSimOk (is_similar name kv.1))).map Prod.fst = q :: qs := by
    rcases hF : (list_all ctx).filter (fun kv => isSimOk (is_similar name kv.1)) with _ | ⟨p, ps⟩
    · exact absurd hF hfne
    · exact ⟨p.1, ps.map Prod.fst, by rw [hF]; rfl⟩
  refine ⟨sortStable lexLe (q :: qs), ?_, ?_, ?_, ?_⟩
  · rw [suggest_similar_variables]
    rw [if_neg (by simpa [List.isEmpty_iff] using hne)]
    rw [hcoll, hq]
  · exact sortStable_sorted _
  · exact (sortStable_perm lexLe _).trans (hq ▸ List.Perm.refl _)
  · intro p hp hd
    obtain ⟨kv, hkv, hkv1⟩ := List.mem_map.mp hp
    have hsim : isSimOk (is_similar name kv.1) = true :=
      isSimOk_close name kv.1 (hnp kv hkv) (hkv1 ▸ hd)
    have hmemF : kv ∈ (list_all ctx).filter (fun p => isSimOk (is_similar name p.1)) :=
      List.mem_filter.mpr ⟨hkv, hsim⟩
    have hmemM : p ∈ ((list_all ctx).filter
        (fun p => isSimOk (is_similar name p.1))).map Prod.fst :=
      hkv1 ▸ List.mem_map_of_mem Prod.fst hmemF
    exact (sortStable_perm lexLe _).mem_iff.mpr (hq ▸ hmemM)

/-- Witness for C8 at a one-variable context: the single similar name is
listed. -/
theorem suggest_similar_variables_spec_witness :
    ∃ listed : List Str,
      suggest_similar_variables ⟨[("ab".toList, JValue.null)]⟩ "abc".toList =
        .ok ("Did you mean one of these?\n".toList ++
          joinNL (listed.map (fun n => "  - ".toList ++ n))) ∧
      List.Sorted (fun a b => lexLe a b = true) listed ∧
      listed.Perm (((list_all ⟨[("ab".toList, JValue.null)]⟩).filter
        (fun kv => isSimOk (is_similar "abc".toList kv.1))).map Prod.fst) ∧
      ∀ p ∈ (list_all ⟨[("ab".toList, JValue.null)]⟩).map Prod.fst,
        levenshtein_distance ("abc".toList.map Char.toLower) (p.map Char.toLower) ≤ 2 →
        p ∈ listed :=
  suggest_similar_variables_spec ⟨[("ab".toList, JValue.null)]⟩ "abc".toList
    (fun h => List.noConfusion h)
    (by
      intro kv hkv
      rw [show list_all ⟨[("ab".toList, JValue.null)]⟩ =
        [("ab".toList, JValue.null)] from rfl, List.mem_singleton] at hkv
      subst hkv
      rfl)
    (fun h => List.noConfusion h)
    (by decide)

theorem editDist_nil_left (t : Str) : editDist [] t = t.length := by
  simp [editDist]

theorem editDist_nil_right (s : Str) : editDist s [] = s.length := by
  cases s <;> simp [editDist]

theorem editDist_cons_cons (a b : Char) (s t : Str) :
    editDist (a :: s) (b :: t) =
      if a = b then editDist s t
      else 1 + min (editDist s t) (min (editDist (a :: s) t) (editDist s (b :: t))) := by
  simp [editDist]

theorem editDist_adj : ∀ (N : Nat) (s t : Str), s.length + t.length ≤ N →
    (∀ b, editDist s (b :: t) ≤ editDist s t + 1) ∧
    (∀ a, editDist (a :: s) t ≤ editDist s t + 1) ∧
    (∀ a, editDist s t ≤ editDist (a :: s) t + 1) ∧
    (∀ b, editDist s t ≤ editDist s (b :: t) + 1) := by
  intro N
  induction N with
  | zero =>
    intro s t hst
    have hs : s = [] := List.length_eq_zero.mp (by omega)
    have ht : t = [] := List.length_eq_zero.mp (by omega)
    subst hs
    subst ht
    refine ⟨?_, ?_, ?_, ?_⟩ <;> intro c <;>
      simp [editDist_nil_left, editDist_nil_right]
  | succ N ih =>
    intro s t hst
    refine ⟨?_, ?_, ?_, ?_⟩
    · intro b
      cases s with
      | nil => simp [editDist_nil_left]
      | cons a s' =>
        have hN : s'.length + t.length ≤ N := by
          rw [List.length_cons] at hst
          omega
        rw [editDist_cons_cons]
        by_cases hab : a = b
        · rw [if_pos hab]
          exact (ih s' t hN).2.2.1 a
        · rw [if_neg hab]
          omega
    · intro a
      cases t with
      | nil => simp [editDist_nil_right]
      | cons b t' =>
        have hN : s.length + t'.length ≤ N := by
          rw [List.length_cons] at hst
          omega
        rw [editDist_cons_cons]
        by_cases hab : a = b
        · rw [if_pos hab]
          exact (ih s t' hN).2.2.2 b
        · rw [if_neg hab]
          omega
    · intro a
      cases t with
      | nil =>
        rw [editDist_nil_right, editDist_nil_right, List.length_cons]
        omega
      | cons b t' =>
        have hN : s.length + t'.length ≤ N := by
          rw [List.length_cons] at hst
          omega
        rw [editDist_cons_cons]
        have hf1 := (ih s t' hN).1 b
        have hf2 := (ih s t' hN).2.2.1 a
        by_cases hab : a = b
        · rw [if_pos hab]
          subst hab
          omega
        · rw [if_neg hab]
          omega
    · intro b
      cases s with
      | nil =>
        rw [editDist_nil_left, editDist_nil_left, List.length_cons]
        omega
      | cons a s' =>
        have hN : s'.length + t.length ≤ N := by
          rw [List.length_cons] at hst
          omega
        rw [editDist_cons_cons]
        have hf1 := (ih s' t hN).2.1 a
        have hf2 := (ih s' t hN).2.2.2 b
        by_cases hab : a = b
        · rw [if_pos hab]
          subst hab
          omega
        · rw [if_neg hab]
          omega

theorem edits_editDist : ∀ (N : Nat) (s t : Str), s.length + t.length ≤ N →
    Edits s t (editDist s t) := by
  intro N
  induction N with
  | zero =>
    intro s t hst
    have hs : s = [] := List.length_eq_zero.mp (by omega)
    have ht : t = [] := List.length_eq_zero.mp (by omega)
    subst hs
    subst ht
    rw [editDist_nil_left]
    exact Edits.nil
  | succ N ih =>
    intro s t hst
    cases s with
    | nil =>
      cases t with
      | nil =>
        rw [editDist_nil_left]
        exact Edits.nil
      | cons b t' =>
        rw [editDist_nil_left, List.length_cons]
        have h := ih [] t' (by simp at hst ⊢; omega)
        rw [editDist_nil_left] at h
        exact Edits.ins b h
    | cons a s' =>
      cases t with
      | nil =>
        rw [editDist_nil_right, List.length_cons]
        have h := ih s' [] (by simp at hst ⊢; omega)
        rw [editDist_nil_right] at h
        exact Edits.del a h
      | cons b t' =>
        have hst' : s'.length + t'.length ≤ N := by
          rw [List.length_cons, List.length_cons] at hst
          omega
        rw [editDist_cons_cons]
        by_cases hab : a = b
        · rw [if_pos hab]
          subst hab
          exact Edits.copy a (ih s' t' hst')
        · rw [if_neg hab]
          rcases le_total (editDist s' t')
              (min (editDist (a :: s') t') (editDist s' (b :: t'))) with h1 | h1
          · rw [min_eq_left h1, Nat.add_comm]
            exact Edits.subst a b (ih s' t' hst')
          · rw [min_eq_right h1]
            rcases le_total (editDist (a :: s') t') (editDist s' (b :: t')) with h2 | h2
            · rw [min_eq_left h2, Nat.add_comm]
              exact Edits.ins b (ih (a :: s') t'
                (by simp only [List.length_cons] at hst ⊢; omega))
            · rw [min_eq_right h2, Nat.add_comm]
              exact Edits.del a (ih s' (b :: t')
                (by simp only [List.length_cons] at hst ⊢; omega))

theorem editDist_le_edits : ∀ {s t : Str} {n : Nat}, Edits s t n → editDist s t ≤ n := by
  intro s t n h
  induction h with
  | nil => simp [editDist_nil_left]
  | copy a h ih =>
    rw [editDist_cons_cons, if_pos rfl]
    exact ih
  | subst a b h ih =>
    rw [editDist_cons_cons]
    by_cases hab : a = b
    · rw [if_pos hab]
      omega
    · rw [if_neg hab]
      omega
  | ins b h ih =>
    rename_i s' t' n'
    have hadj := (editDist_adj (s'.length + t'.length) s' t' le_rfl).1 b
    omega
  | del a h ih =>
    rename_i s' t' n'
    have hadj := (editDist_adj (s'.length + t'.length) s' t' le_rfl).2.1 a
    omega

theorem editDist_isLeast (s t : Str) : IsLeast {n | Edits s t n} (editDist s t) :=
  ⟨edits_editDist (s.length + t.length) s t le_rfl, fun _ hn => editDist_le_edits hn⟩

theorem edits_append_rev : ∀ {s t : Str} {n : Nat}, Edits s t n →
    ∀ {u v : Str} {m : Nat}, Edits u v m →
      Edits (s.reverse ++ u) (t.reverse ++ v) (n + m) := by
  intro s t n h
  induction h with
  | nil =>
    intro u v m h'
    simpa using h'
  | copy a h ih =>
    intro u v m h'
    have := ih (Edits.copy a h')
    simpa [List.reverse_cons, List.append_assoc] using this
  | subst a b h ih =>
    intro u v m h'
    rename_i n0
    have := ih (Edits.subst a b h')
    rw [show n0 + 1 + m = n0 + (m + 1) from by omega]
    simpa [List.reverse_cons, List.append_assoc] using this
  | ins b h ih =>
    intro u v m h'
    rename_i n0
    have := ih (Edits.ins b h')
    rw [show n0 + 1 + m = n0 + (m + 1) from by omega]
    simpa [List.reverse_cons, List.append_assoc] using this
  | del a h ih =>
    intro u v m h'
    rename_i n0
    have := ih (Edits.del a h')
    rw [show n0 + 1 + m = n0 + (m + 1) from by omega]
    simpa [List.reverse_cons, List.append_assoc] using this

theorem edits_rev {s t : Str} {n : Nat} (h : Edits s t n) :
    Edits s.reverse t.reverse n := by
  have := edits_append_rev h Edits.nil
  simpa using this

theorem editDist_rev (s t : Str) : editDist s.reverse t.reverse = editDist s t := by
  have h1 := editDist_isLeast s t
  have h2 := editDist_isLeast s.reverse t.reverse
  have l1 : editDist s.reverse t.reverse ≤ editDist s t := h2.2 (edits_rev h1.1)
  have l2 : editDist s t ≤ editDist s.reverse t.reverse := by
    have h3 := edits_rev h2.1
    rw [List.reverse_reverse, List.reverse_reverse] at h3
    exact h1.2 h3
  omega

theorem mget_mset_self (m : List (List Nat)) (i j v : Nat) (hi : i < m.length)
    (hj : j < ((m.get? i).getD []).length) :
    mget (mset m i j v) i j = v := by
  unfold mget mset
  rw [List.get?_eq_getElem?, List.getElem?_set_self hi, Option.getD_some,
    List.getD_eq_getElem?_getD, List.getElem?_set_self hj, Option.getD_some]

theorem mget_mset_row_ne (m : List (List Nat)) (i j v x y : Nat) (h : x ≠ i) :
    mget (mset m i j v) x y = mget m x y := by
  unfold mget mset
  rw [List.get?_eq_getElem?, List.getElem?_set_ne (Ne.symm h), ← List.get?_eq_getElem?]

theorem mget_mset_col_ne (m : List (List Nat)) (i j v x y : Nat) (h : y ≠ j) :
    mget (mset m i j v) x y = mget m x y := by
  by_cases hx : x = i
  · subst hx
    unfold mget mset
    by_cases hlt : x < m.length
    · rw [List.get?_eq_getElem?, List.getElem?_set_self hlt, Option.getD_some,
        List.getD_eq_getElem?_getD, List.getElem?_set_ne (Ne.symm h),
        ← List.getD_eq_getElem?_getD]
    · rw [List.set_eq_of_length_le (by omega)]
  · exact mget_mset_row_ne m i j v x y hx

theorem dims_mset (r c : Nat) (m : List (List Nat)) (i j v : Nat) (hd : Dims r c m)
    (hi : i < r) :
    Dims r c (mset m i j v) := by
  obtain ⟨hlen, hrow⟩ := hd
  constructor
  · unfold mset
    rw [List.length_set, hlen]
  · intro x hx
    unfold mset
    by_cases hxi : x = i
    · subst hxi
      rw [List.get?_eq_getElem?, List.getElem?_set_self (by omega), Option.getD_some,
        List.length_set]
      exact hrow x hx
    · rw [List.get?_eq_getElem?, List.getElem?_set_ne (fun hc => hxi hc.symm),
        ← List.get?_eq_getElem?]
      exact hrow x hx

theorem take_succ_rev (s : Str) (i : Nat) (c : Char) (h : s.get? i = some c) :
    (s.take (i + 1)).reverse = c :: (s.take i).reverse := by
  have hsp : s.take (i + 1) = s.take i ++ [c] := by
    rw [List.take_succ, show s[i]? = some c from by rw [← List.get?_eq_getElem?]; exact h]
    rfl
  rw [hsp, List.reverse_append]
  rfl

theorem edP_zero_left (s1 s2 : Str) (y : Nat) (hy : y ≤ s2.length) :
    edP s1 s2 0 y = y := by
  unfold edP
  rw [List.take_zero, List.reverse_nil, editDist_nil_left, List.length_reverse,
    List.length_take]
  omega

theorem edP_zero_right (s1 s2 : Str) (x : Nat) (hx : x ≤ s1.length) :
    edP s1 s2 x 0 = x := by
  unfold edP
  rw [List.take_zero, List.reverse_nil, editDist_nil_right, List.length_reverse,
    List.length_take]
  omega

theorem edP_succ_succ (s1 s2 : Str) (i j : Nat) (c1 c2 : Char)
    (h1 : s1.get? i = some c1) (h2 : s2.get? j = some c2) :
    edP s1 s2 (i + 1) (j + 1) =
      min (min (edP s1 s2 i (j + 1) + 1) (edP s1 s2 (i + 1) j + 1))
        (edP s1 s2 i j + if c1 = c2 then 0 else 1) := by
  unfold edP
  rw [take_succ_rev s1 i c1 h1, take_succ_rev s2 j c2 h2, editDist_cons_cons]
  set r1 := (s1.take i).reverse with hr1
  set r2 := (s2.take j).reverse with hr2
  have hA := (editDist_adj (r1.length + r2.length) r1 r2 le_rfl).2.2.2 c2
  have hB := (editDist_adj (r1.length + r2.length) r1 r2 le_rfl).2.2.1 c1
  by_cases hc : c1 = c2
  · rw [if_pos hc, if_pos hc]
    subst hc
    omega
  · rw [if_neg hc, if_neg hc]
    omega

theorem lev_inner (s1 s2 : Str) (i : Nat) (c1 : Char) (hc1 : s1.get? i = some c1)
    (hi : i < s1.length) :
    ∀ (rest : List Char) (j : Nat) (m : List (List Nat)),
      s2.drop j = rest →
      j ≤ s2.length →
      Dims (s1.length + 1) (s2.length + 1) m →
      (∀ y, y ≤ s2.length → mget m i y = edP s1 s2 i y) →
      (∀ y, y ≤ j → mget m (i + 1) y = edP s1 s2 (i + 1) y) →
      Dims (s1.length + 1) (s2.length + 1)
        ((List.enumFrom j rest).foldl (fun m jc =>
          mset m (i + 1) (jc.1 + 1)
            (min (min (mget m i (jc.1 + 1) + 1) (mget m (i + 1) jc.1 + 1))
              (mget m i jc.1 + if c1 = jc.2 then 0 else 1))) m) ∧
      (∀ y, y ≤ s2.length →
        mget ((List.enumFrom j rest).foldl (fun m jc =>
          mset m (i + 1) (jc.1 + 1)
            (min (min (mget m i (jc.1 + 1) + 1) (mget m (i + 1) jc.1 + 1))
              (mget m i jc.1 + if c1 = jc.2 then 0 else 1))) m) (i + 1) y =
          edP s1 s2 (i + 1) y) ∧
      (∀ x y, x ≠ i + 1 →
        mget ((List.enumFrom j rest).foldl (fun m jc =>
          mset m (i + 1) (jc.1 + 1)
            (min (min (mget m i (jc.1 + 1) + 1) (mget m (i + 1) jc.1 + 1))
              (mget m i jc.1 + if c1 = jc.2 then 0 else 1))) m) x y = mget m x y) := by
  intro rest
  induction rest with
  | nil =>
    intro j m hdrop hj hdims hrowi hrowi1
    have hjeq : j = s2.length := le_antisymm hj (List.drop_eq_nil_iff_le.mp hdrop)
    subst hjeq
    rw [show List.enumFrom s2.length ([] : List Char) = [] from rfl, List.foldl_nil]
    exact ⟨hdims, fun y hy => hrowi1 y hy, fun x y _ => rfl⟩
  | cons c2 rest' ih =>
    intro j m hdrop hj hdims hrowi hrowi1
    have hget : s2.get? j = some c2 := by
      have hq := List.get?_drop s2 j 0
      rw [hdrop] at hq
      simpa using hq.symm
    have hdrop' : s2.drop (j + 1) = rest' := by
      have hq := List.drop_drop 1 j s2
      rw [hdrop] at hq
      simpa [Nat.add_comm] using hq.symm
    have hjlt : j < s2.length := by
      by_contra hh
      rw [List.drop_eq_nil_iff_le.mpr (by omega)] at hdrop
      cases hdrop
    rw [List.enumFrom_cons, List.foldl_cons]
    dsimp only
    rw [hrowi (j + 1) (by omega), hrowi1 j le_rfl, hrowi j (by omega),
      ← edP_succ_succ s1 s2 i j c1 c2 hc1 hget]
    have hrowlen : ((m.get? (i + 1)).getD []).length = s2.length + 1 :=
      hdims.2 (i + 1) (by omega)
    have hdims1 : Dims (s1.length + 1) (s2.length + 1)
        (mset m (i + 1) (j + 1) (edP s1 s2 (i + 1) (j + 1))) :=
      dims_mset _ _ m (i + 1) (j + 1) _ hdims (by omega)
    have hrowi' : ∀ y, y ≤ s2.length →
        mget (mset m (i + 1) (j + 1) (edP s1 s2 (i + 1) (j + 1))) i y = edP s1 s2 i y :=
      fun y hy =>
        (mget_mset_row_ne m (i + 1) (j + 1) _ i y (by omega)).trans (hrowi y hy)
    have hrowi1' : ∀ y, y ≤ j + 1 →
        mget (mset m (i + 1) (j + 1) (edP s1 s2 (i + 1) (j + 1))) (i + 1) y =
          edP s1 s2 (i + 1) y := by
      intro y hy
      rcases Nat.lt_or_ge y (j + 1) with hlt | hge
      · rw [mget_mset_col_ne m (i + 1) (j + 1) _ (i + 1) y (by omega)]
        exact hrowi1 y (by omega)
      · have hyeq : y = j + 1 := by omega
        subst hyeq
        exact mget_mset_self m (i + 1) (j + 1) _ (by rw [hdims.1]; omega)
          (by rw [hrowlen]; omega)
    obtain ⟨hd2, hr2, hp2⟩ := ih (j + 1)
      (mset m (i + 1) (j + 1) (edP s1 s2 (i + 1) (j + 1)))
      hdrop' (by omega) hdims1 hrowi' hrowi1'
    refine ⟨hd2, hr2, ?_⟩
    intro x y hx
    rw [hp2 x y hx]
    exact mget_mset_row_ne m (i + 1) (j + 1) _ x y hx

theorem lev_outer (s1 s2 : Str) :
    ∀ (rest : List Char) (i : Nat) (m : List (List Nat)),
      s1.drop i = rest →
      i ≤ s1.length →
      Dims (s1.length + 1) (s2.length + 1) m →
      (∀ y, y ≤ s2.length → mget m i y = edP s1 s2 i y) →
      (∀ x, x ≤ s1.length → mget m x 0 = x) →
      ∀ y, y ≤ s2.length →
        mget ((List.enumFrom i rest).foldl (fun m ic =>
          (List.enumFrom 0 s2).foldl (fun m jc =>
            mset m (ic.1 + 1) (jc.1 + 1)
              (min (min (mget m ic.1 (jc.1 + 1) + 1) (mget m (ic.1 + 1) jc.1 + 1))
                (mget m ic.1 jc.1 + if ic.2 = jc.2 then 0 else 1))) m) m) s1.length y =
          edP s1 s2 s1.length y := by
  intro rest
  induction rest with
  | nil =>
    intro i m hdrop hi hdims hrow hcol
    have hieq : i = s1.length := le_antisymm hi (List.drop_eq_nil_iff_le.mp hdrop)
    subst hieq
    rw [show List.enumFrom s1.length ([] : List Char) = [] from rfl, List.foldl_nil]
    exact hrow
  | cons c1 rest' ih =>
    intro i m hdrop hi hdims hrow hcol
    have hget : s1.get? i = some c1 := by
      have hq := List.get?_drop s1 i 0
      rw [hdrop] at hq
      simpa using hq.symm
    have hdrop' : s1.drop (i + 1) = rest' := by
      have hq := List.drop_drop 1 i s1
      rw [hdrop] at hq
      simpa [Nat.add_comm] using hq.symm
    have hilt : i < s1.length := by
      by_contra hh
      rw [List.drop_eq_nil_iff_le.mpr (by omega)] at hdrop
      cases hdrop
    rw [List.enumFrom_cons, List.foldl_cons]
    dsimp only
    have hrow10 : ∀ y, y ≤ 0 → mget m (i + 1) y = edP s1 s2 (i + 1) y := by
      intro y hy
      have hy0 : y = 0 := by omega
      subst hy0
      rw [hcol (i + 1) (by omega), edP_zero_right s1 s2 (i + 1) (by omega)]
    obtain ⟨hd2, hr2, hp2⟩ := lev_inner s1 s2 i c1 hget hilt s2 0 m rfl
      (by omega) hdims hrow hrow10
    refine ih (i + 1) _ hdrop' (by omega) hd2 hr2 ?_
    intro x hx
    by_cases hxi : x = i + 1
    · subst hxi
      rw [hr2 0 (by omega), edP_zero_right s1 s2 (i + 1) (by omega)]
    · rw [hp2 x 0 hxi]
      exact hcol x hx

theorem mget_init (n1 n2 x y : Nat) (hx : x < n1 + 1) (hy : y < n2 + 1) :
    mget ((List.range (n1 + 1)).map (fun i =>
        (List.range (n2 + 1)).map (fun j => if j = 0 then i else if i = 0 then j else 0)))
      x y = if y = 0 then x else if x = 0 then y else 0 := by
  unfold mget
  rw [List.get?_map, List.get?_range hx, Option.map_some', Option.getD_some,
    List.getD_eq_getElem?_getD, List.getElem?_map, List.getElem?_range hy,
    Option.map_some', Option.getD_some]

theorem dims_init (n1 n2 : Nat) :
    Dims (n1 + 1) (n2 + 1) ((List.range (n1 + 1)).map (fun i =>
      (List.range (n2 + 1)).map (fun j => if j = 0 then i else if i = 0 then j else 0))) := by
  constructor
  · rw [List.length_map, List.length_range]
  · intro x hx
    rw [List.get?_map, List.get?_range hx, Option.map_some', Option.getD_some,
      List.length_map, List.length_range]

theorem levenshtein_eq_editDist (s1 s2 : Str) (h1 : byteLen s1 = s1.length)
    (h2 : byteLen s2 = s2.length) :
    levenshtein_distance s1 s2 = editDist s1 s2 := by
  by_cases he1 : byteLen s1 = 0
  · have hs1 : s1 = [] := List.length_eq_zero.mp (by omega)
    subst hs1
    rw [show levenshtein_distance [] s2 = byteLen s2 from rfl, h2, editDist_nil_left]
  · by_cases he2 : byteLen s2 = 0
    · have hs2 : s2 = [] := List.length_eq_zero.mp (by omega)
      subst hs2
      simp only [levenshtein_distance]
      rw [if_neg he1, if_pos (show byteLen ([] : Str) = 0 from rfl), h1, editDist_nil_right]
    · simp only [levenshtein_distance, List.enum]
      rw [if_neg he1, if_neg he2, h1, h2]
      have hrow0 : ∀ y, y ≤ s2.length →
          mget ((List.range (s1.length + 1)).map (fun i =>
            (List.range (s2.length + 1)).map
              (fun j => if j = 0 then i else if i = 0 then j else 0))) 0 y =
            edP s1 s2 0 y := by
        intro y hy
        rw [mget_init s1.length s2.length 0 y (by omega) (by omega),
          edP_zero_left s1 s2 y hy]
        by_cases hy0 : y = 0
        · subst hy0
          simp
        · rw [if_neg hy0, if_pos rfl]
      have hcol0 : ∀ x, x ≤ s1.length →
          mget ((List.range (s1.length + 1)).map (fun i =>
            (List.range (s2.length + 1)).map
              (fun j => if j = 0 then i else if i = 0 then j else 0))) x 0 = x := by
        intro x hx
        rw [mget_init s1.length s2.length x 0 (by omega) (by omega), if_pos rfl]
      have hfinal := lev_outer s1 s2 s1 0 _ rfl (by omega)
        (dims_init s1.length s2.length) hrow0 hcol0 s2.length le_rfl
      rw [hfinal]
      unfold edP
      rw [List.take_length, List.take_length, editDist_rev]

/-- C9: `levenshtein_distance` sizes its matrix and computes its early
returns with BYTE lengths while filling over character positions, so on the
failing input `("", "é")` it returns 2 although the true character edit
distance (the least cost of an `Edits` script) is 1; whenever each string's
byte length equals its character count (e.g. all-ASCII input) the function
does return the true distance. -/
theorem levenshtein_distance_spec :
    levenshtein_distance [] "é".toList = 2 ∧
    IsLeast {n | Edits [] "é".toList n} 1 ∧
    (∀ s1 s2 : Str, byteLen s1 = s1.length → byteLen s2 = s2.length →
      IsLeast {n | Edits s1 s2 n} (levenshtein_distance s1 s2)) := by
  refine ⟨rfl, ⟨Edits.ins 'é' Edits.nil, ?_⟩, ?_⟩
  · intro n hn
    cases hn
    omega
  · intro s1 s2 hb1 hb2
    rw [levenshtein_eq_editDist s1 s2 hb1 hb2]
    exact editDist_isLeast s1 s2

/-- Witness for C9 on the all-ASCII pair `("ab", "b")`: the byte-length
hypotheses hold and the code's result is the least edit cost. -/
theorem levenshtein_distance_spec_witness :
    byteLen "ab".toList = "ab".toList.length ∧
    IsLeast {n | Edits "ab".toList "b".toList n} (levenshtein_distance "ab".toList "b".toList) :=
  ⟨by decide, levenshtein_distance_spec.2.2 "ab".toList "b".toList (by decide) (by decide)⟩

end Visuidp
